import Mathlib

/-!
Verification of the BitGraph bitset engine (BITSCAN library).

This file gives a shallow embedding, in Lean 4, of the parts of the
BitGraph C++ repository that the checked claims are about:

* the 64-bit primitive layer of `src/bitscan/bitblock.h`
  (intrinsic and De Bruijn bit scans, masks, population count);
* the dense scanning bitset `BBScan` of `src/bitscan/bbscan.h`
  (cached-cursor scans in the four modes);
* the sparse bitset `BitSetSp` of `bbset_sparse.cpp`
  (ordered-merge set algebra, ranged `set_bit`) and the sparse scanning
  class `BBScanSp` of `bbobject.h`;
* the sentinel bitset `BBSentinel` of `bbsentinel.cpp`.

Machine words are modelled as `Nat` values below `2 ^ 64`; every C
operation that can wrap carries an explicit `% 2 ^ 64`.  Blocks of a
bitset are a `List Nat`; sparse records are pairs of a block index and a
block, kept in a `List`.  The int cursors and sentinels of the source,
which use the sentinel value `noBit = -1`, are modelled as `Int`.
-/

/-! ### 64-bit words -/

/-- The block width of the library: 64-bit words. -/
def wordSize : Nat := 64

/-- A word is a `Nat` smaller than `2 ^ 64`. -/
def isU64 (w : Nat) : Prop := w < 2 ^ 64

/-- Truncation to 64 bits; every C operation that can wrap goes through it. -/
def u64 (w : Nat) : Nat := w % 2 ^ 64

/-- Embeds `Tables::mask[b]`: the word with exactly bit `b` set. -/
def maskBit (b : Nat) : Nat := 2 ^ b

/-- Embeds `Tables::mask_low[p]` (`p` in `[0, 64]`): the bits strictly
below position `p`.  The table initialisation in `tables.cpp` sets
`mask_low[c]` to the OR of `mask[j]` for `j < c` and `mask_low[64]` to
all ones, which is `2 ^ p - 1` in both cases. -/
def maskLow (p : Nat) : Nat := 2 ^ p - 1

/-- Embeds `Tables::mask_high[p]` (`p` in `[0, 65]`): the bits strictly
above position `p`.  `tables.cpp` sets `mask_high[c] = ~mask_low[c] ^ mask[c]`
for `c < 64` (bits above `c`), `mask_high[64] = ALL_ZEROS` and
`mask_high[MASK_LIM] = mask_high[65] = ALL_ONES`. -/
def maskHigh (p : Nat) : Nat := if p = 65 then 2 ^ 64 - 1 else 2 ^ 64 - 2 ^ (p + 1)

/-- Embeds `bblock::MASK_1(low, high)`: bits in the closed range `[low, high]`. -/
def mask1Range (low high : Nat) : Nat := (2 ^ (high + 1) - 1) - (2 ^ low - 1)

/-- Embeds `bblock::MASK_1_HIGH(idx) = ~mask_low[idx]`: bits in `[idx, 63]`. -/
def mask1High (idx : Nat) : Nat := (2 ^ 64 - 1) - (2 ^ idx - 1)

/-- Embeds `bblock::MASK_1_LOW(idx) = ~mask_high[idx]`: bits in `[0, idx]`. -/
def mask1Low (idx : Nat) : Nat := 2 ^ (idx + 1) - 1

/-- Embeds the population count `bblock::popc64` of a word: the number of
set bits among positions `0..63`. -/
def popc64 (w : Nat) : Nat := ((List.range 64).filter (fun i => w.testBit i)).length

/-- Fuel-indexed helper for `lsbPos` (the fuel bounds the number of
halvings; structural recursion keeps the definition computable by the
kernel). -/
def lsbPosF : Nat → Nat → Nat
  | 0, _ => 0
  | fuel + 1, w => if w = 0 then 0 else if w % 2 = 1 then 0 else lsbPosF fuel (w / 2) + 1

/-- Position of the least significant set bit, by halving; mirrors what
the hardware `BSF` instruction computes.  Only meaningful for `w ≠ 0`. -/
def lsbPos (w : Nat) : Nat := lsbPosF w w

/-- Fuel-indexed helper for `msbPos`. -/
def msbPosF : Nat → Nat → Nat
  | 0, _ => 0
  | fuel + 1, w => if w < 2 then 0 else msbPosF fuel (w / 2) + 1

/-- Position of the most significant set bit (the base-2 logarithm);
only meaningful for `w ≠ 0`. -/
def msbPos (w : Nat) : Nat := msbPosF w w

/-- Embeds `bblock::lsb64_intrinsic` (`_BitScanForward64`): the least
significant set bit, or `noBit = -1` on the zero word. -/
def lsb64_intrinsic (w : Nat) : Int := if w = 0 then -1 else lsbPos w

/-- Embeds `bblock::msb64_intrinsic` (`_BitScanReverse64`): the most
significant set bit, or `noBit = -1` on the zero word. -/
def msb64_intrinsic (w : Nat) : Int := if w = 0 then -1 else msbPos w

/-! ### De Bruijn bit scanning (`bitblock.h`, `tables.h`) -/

/-- Embeds `bblock::DEBRUIJN_MN_64_SEP`, the multiplier for the
`w ^ (w - 1)` hashing form. -/
def debruijnMagicSep : Nat := 0x03f79d71b4cb0a89

/-- Embeds `bblock::DEBRUIJN_MN_64_ISOL`, the multiplier for the
`w & (-w)` hashing form. -/
def debruijnMagicIsol : Nat := 0x07EDD5E59A4E28C2

/-- Embeds `Tables::indexDeBruijn64_SEP` of `tables.h`. -/
def indexDeBruijn64_SEP : List Nat :=
  [0, 47,  1, 56, 48, 27,  2, 60,
   57, 49, 41, 37, 28, 16,  3, 61,
   54, 58, 35, 52, 50, 42, 21, 44,
   38, 32, 29, 23, 17, 11,  4, 62,
   46, 55, 26, 59, 40, 36, 15, 53,
   34, 51, 20, 43, 31, 22, 10, 45,
   25, 39, 14, 33, 19, 30,  9, 24,
   13, 18,  8, 12,  7,  6,  5, 63]

/-- Embeds `Tables::indexDeBruijn64_ISOL` of `tables.h`. -/
def indexDeBruijn64_ISOL : List Nat :=
  [63,  0, 58,  1, 59, 47, 53,  2,
   60, 39, 48, 27, 54, 33, 42,  3,
   61, 51, 37, 40, 49, 18, 28, 20,
   55, 30, 34, 11, 43, 14, 22,  4,
   62, 57, 46, 52, 38, 26, 32, 41,
   50, 36, 17, 19, 29, 10, 13, 21,
   56, 45, 25, 31, 35, 16,  9, 12,
   44, 24, 15,  8, 23,  7,  6,  5]

/-- Embeds `bblock::lsb64_de_Bruijn`, default (`SEP`) branch: hash
`w ^ (w - 1)` by the magic multiplier, shift right by 58, look the
index up.  The multiplication is 64-bit and wraps. -/
def lsb64_de_Bruijn (w : Nat) : Int :=
  if w = 0 then -1
  else indexDeBruijn64_SEP.getD (u64 ((w ^^^ (w - 1)) * debruijnMagicSep) >>> 58) 0

/-- Embeds `bblock::lsb64_de_Bruijn`, `ISOLANI_LSB` branch: hash
`w & (-w)` (two's complement negation of the 64-bit word, i.e.
`2 ^ 64 - w`) by the `ISOL` magic multiplier. -/
def lsb64_de_Bruijn_isol (w : Nat) : Int :=
  if w = 0 then -1
  else indexDeBruijn64_ISOL.getD (u64 ((w &&& (2 ^ 64 - w)) * debruijnMagicIsol) >>> 58) 0

/-- Embeds the bit-smearing prefix of `bblock::msb64_de_Bruijn`: ORs of
right shifts by 1, 2, 4, 8, 16, 32 create ones from the MSB downwards. -/
def smear (w : Nat) : Nat :=
  let b1 := w ||| (w >>> 1)
  let b2 := b1 ||| (b1 >>> 2)
  let b3 := b2 ||| (b2 >>> 4)
  let b4 := b3 ||| (b3 >>> 8)
  let b5 := b4 ||| (b4 >>> 16)
  b5 ||| (b5 >>> 32)

/-- Embeds `bblock::msb64_de_Bruijn`: smear, then the same `SEP` hash as
the LSB scan. -/
def msb64_de_Bruijn (w : Nat) : Int :=
  if w = 0 then -1
  else indexDeBruijn64_SEP.getD (u64 (smear w * debruijnMagicSep) >>> 58) 0

/-! ### Sparse bitsets (`BitSetSp`, `bbset_sparse.cpp`) -/

/-- Embeds `BitSetSp::pBlock_t`: a sparse record pairing a block index
with a 64-bit block. -/
structure PB where
  idx : Nat
  bb : Nat
deriving DecidableEq, Repr

/-- Embeds the sparse bitset `BitSetSp`: a nominal block-capacity and the
vector of sparse records. -/
structure BitSetSp where
  nBB : Nat
  vBB : List PB
deriving DecidableEq, Repr

/-- The sparse class invariant S1: records strictly sorted by `idx`. -/
def sortedIdx (l : List PB) : Prop := l.Pairwise (fun p q => p.idx < q.idx)

instance : DecidablePred sortedIdx := fun l => List.instDecidablePairwise l

/-- Bit `b` is set in a sparse record list: some record carries the
block of `b` with the offset bit set. -/
def hasBitSp (l : List PB) (b : Nat) : Prop :=
  ∃ p ∈ l, p.idx = b / 64 ∧ p.bb.testBit (b % 64)

instance (l : List PB) (b : Nat) : Decidable (hasBitSp l b) :=
  List.decidableBEx _ l

/-- Ascending enumeration of the set bits of a sparse bitset (what a
non-destructive scan or `to_vector` yields). -/
def bitsOfSp (A : BitSetSp) : List Nat :=
  (List.range (64 * A.nBB)).filter (fun b => decide (hasBitSp A.vBB b))

/-- Embeds `size()` of the spec (§4.2/§4.3): total population count over
the records. -/
def sizeSp (A : BitSetSp) : Nat := (A.vBB.map (fun p => popc64 p.bb)).sum

/-- Embeds `BitSetSp::find_block_pos(int)` of `bbset_sparse.cpp`:
`lower_bound` on `idx`; returns `(exact match?, position)` with position
`-1` when every record has a smaller index. -/
def find_block_pos (l : List PB) (blockID : Nat) : Bool × Int :=
  let i := l.findIdx (fun p => blockID ≤ p.idx)
  if h : i < l.length then
    (decide ((l.get ⟨i, h⟩).idx = blockID), (i : Int))
  else (false, -1)

/-- Insertion into a list sorted by ascending `idx` (helper of the
embedded `sort()`). -/
def insertByIdx (p : PB) : List PB → List PB
  | [] => [p]
  | q :: t => if p.idx ≤ q.idx then p :: q :: t else q :: insertByIdx p t

/-- Embeds the class method `BitSetSp::sort()`: `std::sort` of the
records by ascending `idx` (modelled by a stable insertion sort; on
duplicate-free keys every comparison sort produces the same list, and
the claims evaluated on outputs with duplicate keys only use
sort-order-independent facts). -/
def sortIdxList : List PB → List PB
  | [] => []
  | p :: t => insertByIdx p (sortIdxList t)

/-- Embeds the merge loop of `BitSetSp::operator|=`: walks the original
records of the left operand positionally against the right operand,
ORing blocks with equal index in place and queueing unmatched right
records for appending at the end; the flag records that an append
happened while original records remained (the `flag_sort` of the
source). -/
def orLoopF : Nat → List PB → List PB → List PB × List PB × Bool
  | 0, l, _ => (l, [], false)
  | _ + 1, l, [] => (l, [], false)
  | _ + 1, [], r => ([], r, false)
  | fuel + 1, a :: l, b :: r =>
    if a.idx < b.idx then
      let m := orLoopF fuel l (b :: r)
      (a :: m.1, m.2.1, m.2.2)
    else if b.idx < a.idx then
      let m := orLoopF fuel (a :: l) r
      (m.1, b :: m.2.1, true)
    else
      let m := orLoopF fuel l r
      (⟨a.idx, a.bb ||| b.bb⟩ :: m.1, m.2.1, m.2.2)

/-- The merge loop of `operator|=` with enough fuel for the whole walk. -/
def orLoop (l r : List PB) : List PB × List PB × Bool :=
  orLoopF (l.length + r.length + 1) l r

/-- Embeds `BitSetSp::operator|=` (`bbset_sparse.cpp`, lines 1509-1559):
the merge loop, appending the queued right records at the end, followed
by `sort()` exactly when the flag was raised. -/
def orEq (A B : BitSetSp) : BitSetSp :=
  let m := orLoop A.vBB B.vBB
  { A with vBB := if m.2.2 then sortIdxList (m.1 ++ m.2.1) else m.1 ++ m.2.1 }

/-- Embeds the merge loop of `BitSetSp::operator&=` (lines 1454-1507):
blocks of the left operand with no matching index in the right operand
are zeroed in place (including the tail once the right operand is
exhausted); matching blocks are ANDed; no record is inserted or
removed. -/
def andLoopF : Nat → List PB → List PB → List PB
  | 0, l, _ => l
  | _ + 1, [], _ => []
  | fuel + 1, a :: l, [] => ⟨a.idx, 0⟩ :: andLoopF fuel l []
  | fuel + 1, a :: l, b :: r =>
    if a.idx < b.idx then ⟨a.idx, 0⟩ :: andLoopF fuel l (b :: r)
    else if b.idx < a.idx then andLoopF fuel (a :: l) r
    else ⟨a.idx, a.bb &&& b.bb⟩ :: andLoopF fuel l r

/-- The merge loop of `operator&=` with enough fuel for the whole walk. -/
def andLoop (l r : List PB) : List PB :=
  andLoopF (l.length + r.length + 1) l r

/-- Embeds `BitSetSp::operator&=`. -/
def andEq (A B : BitSetSp) : BitSetSp := { A with vBB := andLoop A.vBB B.vBB }

/-- Embeds the merge loop of `BitSetSp::erase_bit(const BitSetSp&)`
(lines 1424-1452): matching blocks get `lhs &= ~rhs`; everything else is
left untouched; no record is inserted or removed. -/
def eraseLoopF : Nat → List PB → List PB → List PB
  | 0, l, _ => l
  | _ + 1, [], _ => []
  | _ + 1, l, [] => l
  | fuel + 1, a :: l, b :: r =>
    if a.idx < b.idx then a :: eraseLoopF fuel l (b :: r)
    else if b.idx < a.idx then eraseLoopF fuel (a :: l) r
    else ⟨a.idx, a.bb &&& ((2 ^ 64 - 1) ^^^ b.bb)⟩ :: eraseLoopF fuel l r

/-- The merge loop of `erase_bit(rhs)` with enough fuel for the walk. -/
def eraseLoop (l r : List PB) : List PB :=
  eraseLoopF (l.length + r.length + 1) l r

/-- Embeds `BitSetSp::erase_bit(const BitSetSp&)`. -/
def eraseRhs (A B : BitSetSp) : BitSetSp := { A with vBB := eraseLoop A.vBB B.vBB }

/-- Embeds the main loop of `BitSetSp::set_bit(int, int)` (lines
716-744): while the position is below the original size and the block
below the upper block, either append an all-ones block (advancing the
position when the record index is stale, or the block — raising the
sort flag — when the record index is ahead), or overwrite a matching
record with all ones. -/
def setBitRangeLoopF (sizeL bbh : Nat) :
    Nat → List PB → Nat → Nat → Bool → List PB × Nat × Nat × Bool
  | 0, v, pos, block, flag => (v, pos, block, flag)
  | fuel + 1, v, pos, block, flag =>
    if pos < sizeL ∧ block < bbh then
      let q := v.getD pos ⟨0, 0⟩
      if q.idx < block then
        setBitRangeLoopF sizeL bbh fuel (v ++ [⟨block, 2 ^ 64 - 1⟩]) (pos + 1) block flag
      else if block < q.idx then
        setBitRangeLoopF sizeL bbh fuel (v ++ [⟨block, 2 ^ 64 - 1⟩]) pos (block + 1) true
      else
        setBitRangeLoopF sizeL bbh fuel (v.set pos ⟨q.idx, 2 ^ 64 - 1⟩) (pos + 1) (block + 1) flag
    else (v, pos, block, flag)

/-- The main loop of `set_bit(int, int)` with enough fuel to run to its
exit condition. -/
def setBitRangeLoop (sizeL bbh : Nat) (v : List PB) (pos block : Nat) (flag : Bool) :
    List PB × Nat × Nat × Bool :=
  setBitRangeLoopF sizeL bbh ((sizeL - pos) + (bbh - block) + 1) v pos block flag

/-- Embeds `BitSetSp::set_bit(int, int)` (`bbset_sparse.cpp`, lines
631-781): sets the closed bit range, following the source case by case
(no records at or above the first block; singleton block range; first
block, main loop, and the two loop exit treatments; conditional final
sort).  The source reads `vBB_[posTHIS]` after the loop even when
`posTHIS` is one past the end of the vector (undefined behaviour in
C++); the embedding totalises those reads with a `⟨0, 0⟩` default. -/
def setBitRange (st : BitSetSp) (firstBit lastBit : Nat) : BitSetSp :=
  let bbl := firstBit / 64
  let bbh := lastBit / 64
  let sizeL := st.vBB.length
  let offsetl := firstBit % 64
  let offseth := lastBit % 64
  let fb := find_block_pos st.vBB bbl
  if fb.2 = -1 then
    -- case I: all existing blocks are outside (below) the range
    if bbl = bbh then { st with vBB := st.vBB ++ [⟨bbl, mask1Range offsetl offseth⟩] }
    else
      { st with vBB := st.vBB ++ [⟨bbl, mask1High offsetl⟩, ⟨bbh, mask1Low offseth⟩] ++
          ((List.range (bbh - (bbl + 1))).map (fun k => ⟨bbl + 1 + k, 2 ^ 64 - 1⟩)) }
  else
    let pos := fb.2.toNat
    let pb := st.vBB.getD pos ⟨0, 0⟩
    if bbl = bbh then
      -- case II: singleton range
      if pb.idx = bbl then
        { st with vBB := st.vBB.set pos ⟨bbl, pb.bb ||| mask1Range offsetl offseth⟩ }
      else if bbl < pb.idx then
        { st with vBB := st.vBB.insertIdx pos ⟨bbl, mask1Range offsetl offseth⟩ }
      else { st with vBB := st.vBB ++ [⟨bbl, mask1Range offsetl offseth⟩] }
    else
      -- case III: first block
      let v1 := if pb.idx = bbl then st.vBB.set pos ⟨bbl, pb.bb ||| mask1High offsetl⟩
                else st.vBB ++ [⟨bbl, mask1High offsetl⟩]
      let f1 := if pb.idx = bbl then false else decide (bbl < pb.idx)
      -- main loop
      let r := setBitRangeLoop sizeL bbh v1 (pos + 1) (bbl + 1) f1
      let v2 := r.1
      let pos2 := r.2.1
      let block2 := r.2.2.1
      let f2 := r.2.2.2
      -- exit treatment I: the last block has been reached
      let e1 : List PB × Bool :=
        if block2 = bbh then
          let q := v2.getD pos2 ⟨0, 0⟩
          if q.idx = bbh then (v2.set pos2 ⟨q.idx, q.bb ||| mask1Low offseth⟩, f2)
          else
            let v2a := v2 ++ [⟨block2, mask1Low offseth⟩]
            (v2a, if block2 < (v2a.getD pos2 ⟨0, 0⟩).idx then true else f2)
        else (v2, f2)
      -- exit treatment II: no more original blocks
      let v4 :=
        if pos2 = sizeL then
          e1.1 ++ ((List.range (bbh - block2)).map (fun k => ⟨block2 + k, 2 ^ 64 - 1⟩)) ++
            [⟨bbh, mask1Low offseth⟩]
        else e1.1
      { st with vBB := if e1.2 then sortIdxList v4 else v4 }

/-! ### Sparse scanning (`BBScanSp`, `bbobject.h`) -/

/-- The four scan modes of `BBObject::scan_types`. -/
inductive ScanType where
  | nonDestructive
  | nonDestructiveReverse
  | destructive
  | destructiveReverse
deriving DecidableEq, Repr

/-- Embeds the sparse scanning bitset `BBScanSp`: a sparse bitset plus
the cached cursor `scan_` (`bbi_` is a position in the record
collection, `pos_` a bit offset). -/
structure BBScanSp where
  nBB : Nat
  vBB : List PB
  scanBbi : Int
  scanPos : Nat
deriving DecidableEq, Repr

/-- Modelled from the spec: `BitSetSp::erase_bit(int)` lives in the
missing header `bbset_sparse.h`; per §4.3 of the spec it locates the
record of the bit's block and clears the bit if the record is present
(the record may remain with `bits == 0`), and does nothing otherwise. -/
def eraseBitSp (l : List PB) (b : Nat) : List PB :=
  l.map (fun p => if p.idx = b / 64 then ⟨p.idx, p.bb &&& ((2 ^ 64 - 1) ^^^ 2 ^ (b % 64))⟩ else p)

/-- Embeds the block-skipping loops of the sparse scans: the first
record at position at least `i` whose block is nonzero, together with
the least set bit of that block. -/
def scanFwdFromSpF (v : List PB) : Nat → Nat → Option (Nat × Nat)
  | 0, _ => none
  | fuel + 1, i =>
    if i < v.length then
      if (v.getD i ⟨0, 0⟩).bb = 0 then scanFwdFromSpF v fuel (i + 1)
      else some (i, lsbPos (v.getD i ⟨0, 0⟩).bb)
    else none

/-- The sparse block-skipping loop with enough fuel to reach the end of
the record vector. -/
def scanFwdFromSp (v : List PB) (i : Nat) : Option (Nat × Nat) :=
  scanFwdFromSpF v (v.length + 1 - i) i

/-- Embeds the dual-bitset scan step `BBScanSp::next_bit(BBScanSp&)`
(`bbobject.h`, lines 936-970): finds the next set bit after the cursor,
caches it, and calls `bitset.erase_bit(posInBB)` on the other bitset,
where `posInBB` is only the offset of the bit inside its block.
Returns the bit, the new scanning state, and the new other bitset. -/
def nextBitSpDual (st other : BBScanSp) : Int × BBScanSp × BBScanSp :=
  let cur := st.vBB.getD st.scanBbi.toNat ⟨0, 0⟩
  let w := cur.bb &&& maskHigh st.scanPos
  if w ≠ 0 then
    let p := lsbPos w
    ((p : Int) + 64 * (cur.idx : Int), { st with scanPos := p },
     { other with vBB := eraseBitSp other.vBB p })
  else
    match scanFwdFromSp st.vBB (st.scanBbi.toNat + 1) with
    | some (i, p) =>
      let idx := (st.vBB.getD i ⟨0, 0⟩).idx
      ((p : Int) + 64 * (idx : Int), { st with scanBbi := (i : Int), scanPos := p },
       { other with vBB := eraseBitSp other.vBB p })
    | none => (-1, st, other)

/-- The typed error thrown by sparse scan initialisation on an empty
record vector (`BitScanError`, the `ScanOnEmpty` failure of the spec). -/
inductive BitScanErr where
  | scanOnEmpty
deriving DecidableEq, Repr

/-- Embeds `BBScanSp::init_scan(scan_types)` (`bbobject.h`, lines
1131-1163): throws the typed error when the record vector is empty
(before any mutation), otherwise seeds the cursor per mode. -/
def initScanSp (st : BBScanSp) (sct : ScanType) : Except BitScanErr BBScanSp :=
  if st.vBB.isEmpty then .error .scanOnEmpty
  else match sct with
  | .nonDestructive => .ok { st with scanBbi := 0, scanPos := 65 }
  | .nonDestructiveReverse => .ok { st with scanBbi := (st.vBB.length : Int) - 1, scanPos := 64 }
  | .destructive => .ok { st with scanBbi := 0 }
  | .destructiveReverse => .ok { st with scanBbi := (st.vBB.length : Int) - 1 }

/-- Result of `BBScanSp::init_scan(int, scan_types)` when no exception
is thrown: success, a `-1` return with untouched state (no block at or
above the starting block), or the fatal `std::exit` path of the
destructive modes. -/
inductive SpInitOutcome where
  | success (st : BBScanSp)
  | noScan (st : BBScanSp)
  | fatal
deriving DecidableEq, Repr

/-- Embeds `BBScanSp::init_scan(int, scan_types)` (`bbobject.h`, lines
1165-1212): the empty check comes first and throws; `firstBit = -1`
delegates to the modeless overload; otherwise the cursor is placed by
`find_block_pos`, and destructive modes exit the program. -/
def initScanSpFrom (st : BBScanSp) (firstBit : Int) (sct : ScanType) :
    Except BitScanErr SpInitOutcome :=
  if st.vBB.isEmpty then .error .scanOnEmpty
  else if firstBit = -1 then (initScanSp st sct).map .success
  else
    let bbL := firstBit.toNat / 64
    let p := find_block_pos st.vBB bbL
    if p.2 = -1 then .ok (.noScan st)
    else match sct with
    | .nonDestructive | .nonDestructiveReverse =>
        let newPos := if p.1 then firstBit.toNat - 64 * bbL else 65
        .ok (.success { st with scanBbi := p.2, scanPos := newPos })
    | .destructive | .destructiveReverse => .ok .fatal

/-! ### Dense scanning bitset (`BBScan`, `bbscan.h`) -/

/-- Embeds the dense scanning bitset `BBScan`: block-capacity `nBB_`,
the block vector `vBB_`, and the cached cursor `scan_`.  The bit-offset
cursor only ever holds values in `[0, 65]`, so it is a `Nat`; the block
cursor can be the uninitialised `noBit = -1`, so it is an `Int`. -/
structure BBScan where
  nBB : Nat
  vBB : List Nat
  scanBbi : Int
  scanPos : Nat
deriving DecidableEq, Repr

/-- Bit `b` is set in a dense block list. -/
def hasBitD (v : List Nat) (b : Nat) : Bool := (v.getD (b / 64) 0).testBit (b % 64)

/-- Ascending enumeration of the set bits of a dense block list. -/
def bitsOfD (v : List Nat) : List Nat :=
  (List.range (64 * v.length)).filter (fun b => hasBitD v b)

/-- All blocks are 64-bit words (the representation invariant of the
C++ `BITBOARD` array). -/
def blocksU64 (v : List Nat) : Prop := ∀ w ∈ v, w < 2 ^ 64

instance (v : List Nat) : Decidable (blocksU64 v) := List.decidableBAll _ v

/-- Embeds `vBB_[i] &= ~Tables::mask[p]`: clear bit `p` of block `i`. -/
def clearBitBlock (v : List Nat) (i p : Nat) : List Nat :=
  v.set i (v.getD i 0 &&& ((2 ^ 64 - 1) ^^^ 2 ^ p))

/-- Embeds the forward block loops of `BBScan` (`for i = bbi; i < nBB_;
++i` with `_BitScanForward64`): the first block at index at least `i`
that is nonzero, with the least set bit of that block. -/
def scanFwdFromDF (v : List Nat) (n : Nat) : Nat → Nat → Option (Nat × Nat)
  | 0, _ => none
  | fuel + 1, i =>
    if i < n then
      if v.getD i 0 = 0 then scanFwdFromDF v n fuel (i + 1)
      else some (i, lsbPos (v.getD i 0))
    else none

/-- The dense forward block loop with enough fuel to reach block `n`. -/
def scanFwdFromD (v : List Nat) (n : Nat) (i : Nat) : Option (Nat × Nat) :=
  scanFwdFromDF v n (n + 1 - i) i

/-- Embeds the backward block loops of `BBScan` (`for i = bbi; i >= 0;
--i` with `_BitScanReverse64`): the last block at index at most `i`
that is nonzero, with the most significant set bit of that block. -/
def scanBwdFromD (v : List Nat) : Nat → Option (Nat × Nat)
  | 0 => if v.getD 0 0 = 0 then none else some (0, msbPos (v.getD 0 0))
  | i + 1 =>
    if v.getD (i + 1) 0 = 0 then scanBwdFromD v i
    else some (i + 1, msbPos (v.getD (i + 1) 0))

/-- Embeds `BBScan::next_bit()` (`bbscan.h`, lines 366-395): search the
cursor block above the cached offset, then the remaining blocks; cache
the position of the returned bit; do not modify the blocks. -/
def nextBit (st : BBScan) : Int × BBScan :=
  let w := st.vBB.getD st.scanBbi.toNat 0 &&& maskHigh st.scanPos
  if w ≠ 0 then
    let p := lsbPos w
    ((p : Int) + 64 * st.scanBbi, { st with scanPos := p })
  else
    match scanFwdFromD st.vBB st.nBB (st.scanBbi.toNat + 1) with
    | some (i, p) => ((p : Int) + 64 * (i : Int), { st with scanBbi := (i : Int), scanPos := p })
    | none => (-1, st)

/-- Embeds `BBScan::next_bit_del()` (`bbscan.h`, lines 318-337): find
the first set bit from the cursor block on, cache its block, clear it
from the bitset, and return it. -/
def nextBitDel (st : BBScan) : Int × BBScan :=
  match scanFwdFromD st.vBB st.nBB st.scanBbi.toNat with
  | some (i, p) =>
    ((p : Int) + 64 * (i : Int),
     { st with scanBbi := (i : Int), vBB := clearBitBlock st.vBB i p })
  | none => (-1, st)

/-- Embeds `BBScan::prev_bit()` (`bbscan.h`, lines 441-471): search the
cursor block below the cached offset, then the earlier blocks
downwards; cache the position of the returned bit. -/
def prevBit (st : BBScan) : Int × BBScan :=
  let w := st.vBB.getD st.scanBbi.toNat 0 &&& maskLow st.scanPos
  if w ≠ 0 then
    let p := msbPos w
    ((p : Int) + 64 * st.scanBbi, { st with scanPos := p })
  else if st.scanBbi ≤ 0 then (-1, st)
  else
    match scanBwdFromD st.vBB (st.scanBbi.toNat - 1) with
    | some (i, p) => ((p : Int) + 64 * (i : Int), { st with scanBbi := (i : Int), scanPos := p })
    | none => (-1, st)

/-- Embeds `BBScan::init_scan(scan_types)` (`bbscan.h`, lines 566-591):
seed block 0 and offset `MASK_LIM = 65` forward, or the last block and
offset `WORD_SIZE = 64` in reverse; destructive modes only seed the
block. -/
def initScan (st : BBScan) (sct : ScanType) : BBScan :=
  match sct with
  | .nonDestructive => { st with scanBbi := 0, scanPos := 65 }
  | .nonDestructiveReverse => { st with scanBbi := (st.nBB : Int) - 1, scanPos := 64 }
  | .destructive => { st with scanBbi := 0 }
  | .destructiveReverse => { st with scanBbi := (st.nBB : Int) - 1 }

/-- Embeds `BBScan::init_scan(int, scan_types)` (`bbscan.h`, lines
594-620): `firstBit = noBit` delegates; otherwise the cursor is set to
the block and offset of `firstBit` (offset only for the non-destructive
modes). -/
def initScanFrom (st : BBScan) (firstBit : Int) (sct : ScanType) : BBScan :=
  if firstBit = -1 then initScan st sct
  else
    let bbh := firstBit.toNat / 64
    match sct with
    | .nonDestructive | .nonDestructiveReverse =>
        { st with scanBbi := (bbh : Int), scanPos := firstBit.toNat % 64 }
    | .destructive | .destructiveReverse => { st with scanBbi := (bbh : Int) }

/-- Iterate a scan step, collecting returned bits until `noBit` (or the
fuel runs out); also returns the final state. -/
def scanBits (step : BBScan → Int × BBScan) : Nat → BBScan → List Int × BBScan
  | 0, st => ([], st)
  | fuel + 1, st =>
    let r := step st
    if r.1 = -1 then ([], r.2)
    else
      let rest := scanBits step fuel r.2
      (r.1 :: rest.1, rest.2)

/-- Specification device: the virtual forward-cursor value of a dense
scan state, i.e. the global bit position at or below which `next_bit`
must not look.  The freshly seeded non-destructive forward state
(`bbi = 0`, `pos = MASK_LIM = 65`, where `mask_high[65]` is all ones)
means "before bit 0", i.e. `-1`. -/
def cvalF (st : BBScan) : Int :=
  if st.scanPos = 65 then -1 else 64 * st.scanBbi + st.scanPos

/-- Specification device: the virtual backward-cursor value of a dense
scan state, i.e. the global bit position at or above which `prev_bit`
must not look.  The freshly seeded reverse state has `pos = WORD_SIZE =
64`, i.e. "after the top bit of the last block". -/
def cvalB (st : BBScan) : Int := 64 * st.scanBbi + st.scanPos

/-! ### Sentinel bitset (`BBSentinel`, `bbsentinel.cpp`) -/

/-- Embeds `BBSentinel`: a dense bitset plus the sentinel pair
`(m_BBL, m_BBH)`; `EMPTY_ELEM = -1` denotes the empty window. -/
structure BBSentinel where
  nBB : Nat
  vBB : List Nat
  bbl : Int
  bbh : Int
deriving DecidableEq, Repr

/-- Embeds the `std::find_if` of `update_sentinels_low`: the first index
in `[lo, hi]` whose block is nonzero. -/
def firstNzInF (v : List Nat) (hi : Nat) : Nat → Nat → Option Nat
  | 0, _ => none
  | fuel + 1, lo =>
    if lo ≤ hi then
      if v.getD lo 0 ≠ 0 then some lo else firstNzInF v hi fuel (lo + 1)
    else none

/-- The `std::find_if` search with enough fuel to cross `[lo, hi]`. -/
def firstNzIn (v : List Nat) (lo hi : Nat) : Option Nat :=
  firstNzInF v hi (hi + 1 - lo + 1) lo

/-- Embeds the backward search of `update_sentinels_high` (`for i = hi;
i >= lo; --i`): the last index in `[lo, hi]` whose block is nonzero. -/
def lastNzIn (v : List Nat) (lo : Nat) : Nat → Option Nat
  | 0 => if 0 < lo then none else if v.getD 0 0 ≠ 0 then some 0 else none
  | hi + 1 =>
    if hi + 1 < lo then none
    else if v.getD (hi + 1) 0 ≠ 0 then some (hi + 1)
    else lastNzIn v lo hi

/-- Embeds `BBSentinel::update_sentinels_low()` (`bbsentinel.cpp`): if
the block at the low sentinel became zero, advance it to the first
nonzero block in `(low, high]`, or empty the window. -/
def updateSentinelsLow (st : BBSentinel) : BBSentinel :=
  if st.bbl = -1 then st
  else if st.vBB.getD st.bbl.toNat 0 ≠ 0 then st
  else match firstNzIn st.vBB (st.bbl.toNat + 1) st.bbh.toNat with
    | some j => { st with bbl := (j : Int) }
    | none => { st with bbl := -1, bbh := -1 }

/-- Embeds `BBSentinel::update_sentinels_high()`: if the block at the
high sentinel became zero, retreat it to the last nonzero block in
`[low, high)`, or empty the window. -/
def updateSentinelsHigh (st : BBSentinel) : BBSentinel :=
  if st.bbh = -1 then st
  else if st.vBB.getD st.bbh.toNat 0 ≠ 0 then st
  else
    let res := if st.bbh.toNat = 0 then none
               else lastNzIn st.vBB st.bbl.toNat (st.bbh.toNat - 1)
    match res with
    | some j => { st with bbh := (j : Int) }
    | none => { st with bbl := -1, bbh := -1 }

/-- Embeds `BBSentinel::erase_bit_and_update(int)` (`bbsentinel.cpp`,
lines 371-418): on a non-empty window, clear the bit; if its block
became zero and carries a sentinel, update that sentinel. -/
def eraseBitAndUpdate (st : BBSentinel) (nBit : Nat) : BBSentinel :=
  if st.bbl = -1 ∨ st.bbh = -1 then st
  else
    let bb := nBit / 64
    let v := clearBitBlock st.vBB bb (nBit % 64)
    let st1 : BBSentinel := { st with vBB := v }
    if v.getD bb 0 = 0 then
      if st.bbl = (bb : Int) then updateSentinelsLow st1
      else if st.bbh = (bb : Int) then updateSentinelsHigh st1
      else st1
    else st1

/-- Embeds `BBSentinel::erase_bit()` (`bbsentinel.cpp`, lines 334-348):
zero every block inside the sentinel window, without touching the
sentinels. -/
def eraseBitSen (st : BBSentinel) : BBSentinel :=
  if st.bbl = -1 ∨ st.bbh = -1 then st
  else
    { st with vBB :=
        (List.range st.vBB.length).map (fun i =>
          if st.bbl.toNat ≤ i ∧ i ≤ st.bbh.toNat then 0 else st.vBB.getD i 0) }

/-- Embeds `BBSentinel::is_empty()` (`bbsentinel.cpp`, lines 422-425):
true exactly when a sentinel is `EMPTY_ELEM`; the blocks are not
inspected. -/
def isEmptySen (st : BBSentinel) : Bool := st.bbl = -1 || st.bbh = -1

/-- The sentinel window invariant of the spec: every block outside
`[low, high]` is zero (with the empty `(noBit, noBit)` window this says
every block is zero). -/
def windowInv (st : BBSentinel) : Prop :=
  ∀ j, j < st.vBB.length → ((j : Int) < st.bbl ∨ st.bbh < (j : Int)) → st.vBB.getD j 0 = 0

instance (st : BBSentinel) : Decidable (windowInv st) := Nat.decidableBallLT _ _

/-- Specification-side lookup of the record of a block index (the
unique record carrying `idx` in a sorted record list). -/
def lookupIdx (B : List PB) (i : Nat) : Option PB := B.find? (fun q => q.idx = i)

/-- The per-record effect of `operator&=` (specification side): AND with
the matching right-hand block, zero when no matching record exists. -/
def andMapped (B : List PB) (p : PB) : PB :=
  match lookupIdx B p.idx with
  | some q => ⟨p.idx, p.bb &&& q.bb⟩
  | none => ⟨p.idx, 0⟩

/-- The per-record effect of `erase_bit(rhs)` (specification side):
AND-NOT with the matching right-hand block, unchanged otherwise. -/
def eraseMapped (B : List PB) (p : PB) : PB :=
  match lookupIdx B p.idx with
  | some q => ⟨p.idx, p.bb &&& ((2 ^ 64 - 1) ^^^ q.bb)⟩
  | none => p

/-! ## Lemmas on the primitive layer -/

theorem lsbPosF_congr : ∀ (f1 f2 w : Nat), w ≤ f1 → w ≤ f2 → lsbPosF f1 w = lsbPosF f2 w := by
  intro f1
  induction f1 with
  | zero =>
    intro f2 w h1 _
    have hw : w = 0 := by omega
    subst hw
    cases f2 <;> simp [lsbPosF]
  | succ f ih =>
    intro f2 w h1 h2
    cases f2 with
    | zero =>
      have hw : w = 0 := by omega
      subst hw
      simp [lsbPosF]
    | succ g =>
      by_cases hw : w = 0
      · subst hw; simp [lsbPosF]
      · by_cases hodd : w % 2 = 1
        · simp [lsbPosF, hw, hodd]
        · simp only [lsbPosF, if_neg hw, if_neg hodd]
          have := ih g (w / 2) (by omega) (by omega)
          omega

theorem lsbPos_of_odd {w : Nat} (h : w % 2 = 1) : lsbPos w = 0 := by
  have hw : w ≠ 0 := by omega
  obtain ⟨n, rfl⟩ : ∃ n, w = n + 1 := ⟨w - 1, by omega⟩
  simp [lsbPos, lsbPosF, h]

theorem lsbPos_of_even {w : Nat} (hw : w ≠ 0) (h : w % 2 = 0) :
    lsbPos w = lsbPos (w / 2) + 1 := by
  obtain ⟨n, rfl⟩ : ∃ n, w = n + 1 := ⟨w - 1, by omega⟩
  show lsbPosF (n + 1) (n + 1) = lsbPos ((n + 1) / 2) + 1
  have hne : ¬(n + 1 = 0) := by omega
  have hodd : ¬((n + 1) % 2 = 1) := by omega
  simp only [lsbPosF, if_neg hne, if_neg hodd]
  have hcg : lsbPosF n ((n + 1) / 2) = lsbPosF ((n + 1) / 2) ((n + 1) / 2) :=
    lsbPosF_congr n ((n + 1) / 2) ((n + 1) / 2) (by omega) (by omega)
  rw [hcg]
  rfl

theorem msbPosF_congr : ∀ (f1 f2 w : Nat), w ≤ f1 → w ≤ f2 → msbPosF f1 w = msbPosF f2 w := by
  intro f1
  induction f1 with
  | zero =>
    intro f2 w h1 _
    have hw : w = 0 := by omega
    subst hw
    cases f2 <;> simp [msbPosF]
  | succ f ih =>
    intro f2 w h1 h2
    cases f2 with
    | zero =>
      have hw : w = 0 := by omega
      subst hw
      simp [msbPosF]
    | succ g =>
      by_cases hlt : w < 2
      · simp [msbPosF, hlt]
      · simp only [msbPosF, if_neg hlt]
        have := ih g (w / 2) (by omega) (by omega)
        omega

theorem msbPos_of_lt2 {w : Nat} (h : w < 2) : msbPos w = 0 := by
  interval_cases w <;> simp [msbPos, msbPosF]

theorem msbPos_of_ge2 {w : Nat} (h : 2 ≤ w) : msbPos w = msbPos (w / 2) + 1 := by
  obtain ⟨n, rfl⟩ : ∃ n, w = n + 1 := ⟨w - 1, by omega⟩
  show msbPosF (n + 1) (n + 1) = msbPos ((n + 1) / 2) + 1
  have hlt : ¬(n + 1 < 2) := by omega
  simp only [msbPosF, if_neg hlt]
  have hcg : msbPosF n ((n + 1) / 2) = msbPosF ((n + 1) / 2) ((n + 1) / 2) :=
    msbPosF_congr n ((n + 1) / 2) ((n + 1) / 2) (by omega) (by omega)
  rw [hcg]
  rfl

theorem pow_lsbPos_le : ∀ w : Nat, w ≠ 0 → 2 ^ lsbPos w ≤ w := by
  intro w
  induction w using Nat.strong_induction_on with
  | _ w ih =>
    intro hw
    rcases Nat.even_or_odd w with he | ho
    · have h2 : w % 2 = 0 := Nat.even_iff.mp he
      have hhalf : w / 2 ≠ 0 := by omega
      have := ih (w / 2) (by omega) hhalf
      rw [lsbPos_of_even hw h2, pow_succ]
      omega
    · rw [lsbPos_of_odd (Nat.odd_iff.mp ho)]
      omega

theorem lsbPos_lt_64 {w : Nat} (hw : w ≠ 0) (h64 : w < 2 ^ 64) : lsbPos w < 64 := by
  have h := pow_lsbPos_le w hw
  by_contra hc
  have : (2 : Nat) ^ 64 ≤ 2 ^ lsbPos w := Nat.pow_le_pow_right (by norm_num) (by omega)
  omega

theorem msbPos_spec : ∀ w : Nat, w ≠ 0 → 2 ^ msbPos w ≤ w ∧ w < 2 ^ (msbPos w + 1) := by
  intro w
  induction w using Nat.strong_induction_on with
  | _ w ih =>
    intro hw
    by_cases h2 : w < 2
    · rw [msbPos_of_lt2 h2]
      constructor <;> simp <;> omega
    · rw [msbPos_of_ge2 (by omega)]
      have hhalf : w / 2 ≠ 0 := by omega
      obtain ⟨hl, hh⟩ := ih (w / 2) (by omega) hhalf
      constructor
      · rw [pow_succ]; omega
      · rw [pow_succ, pow_succ]; omega

theorem msbPos_lt_64 {w : Nat} (hw : w ≠ 0) (h64 : w < 2 ^ 64) : msbPos w < 64 := by
  obtain ⟨hl, _⟩ := msbPos_spec w hw
  by_contra hc
  have : (2 : Nat) ^ 64 ≤ 2 ^ msbPos w := Nat.pow_le_pow_right (by norm_num) (by omega)
  omega

theorem testBit_msbPos {w : Nat} (hw : w ≠ 0) : w.testBit (msbPos w) = true := by
  obtain ⟨hl, hh⟩ := msbPos_spec w hw
  rw [Nat.testBit_to_div_mod]
  have hpos : 0 < 2 ^ msbPos w := Nat.pos_pow_of_pos _ (by norm_num)
  have h1 : 1 ≤ w / 2 ^ msbPos w := (Nat.one_le_div_iff hpos).mpr hl
  have h2 : w / 2 ^ msbPos w < 2 := by
    rw [Nat.div_lt_iff_lt_mul hpos]
    rw [pow_succ] at hh
    omega
  have : w / 2 ^ msbPos w = 1 := by omega
  simp [this]

/-- Binary decomposition of a bitwise XOR: combining the low bit with the
halves. -/
theorem xor_two_mul_add (a b x y : Nat) (hx : x < 2) (hy : y < 2) :
    (2 * a + x) ^^^ (2 * b + y) = 2 * (a ^^^ b) + (x ^^^ y) := by
  apply Nat.eq_of_testBit_eq
  intro i
  cases i with
  | zero =>
    rw [Nat.testBit_xor, Nat.testBit_zero, Nat.testBit_zero, Nat.testBit_zero]
    interval_cases x <;> interval_cases y <;> simp [Nat.mul_add_mod, Nat.add_mul_mod_self_left]
  | succ i =>
    have e1 : (2 * a + x) / 2 = a := by omega
    have e2 : (2 * b + y) / 2 = b := by omega
    have e3 : (2 * (a ^^^ b) + (x ^^^ y)) / 2 = a ^^^ b := by
      have : x ^^^ y < 2 := by interval_cases x <;> interval_cases y <;> decide
      omega
    rw [Nat.testBit_xor, Nat.testBit_succ, Nat.testBit_succ, Nat.testBit_succ,
        e1, e2, e3, Nat.testBit_xor]

/-- Binary decomposition of a bitwise AND. -/
theorem and_two_mul_add (a b x y : Nat) (hx : x < 2) (hy : y < 2) :
    (2 * a + x) &&& (2 * b + y) = 2 * (a &&& b) + (x &&& y) := by
  apply Nat.eq_of_testBit_eq
  intro i
  cases i with
  | zero =>
    rw [Nat.testBit_and, Nat.testBit_zero, Nat.testBit_zero, Nat.testBit_zero]
    interval_cases x <;> interval_cases y <;> simp [Nat.mul_add_mod, Nat.add_mul_mod_self_left]
  | succ i =>
    have e1 : (2 * a + x) / 2 = a := by omega
    have e2 : (2 * b + y) / 2 = b := by omega
    have e3 : (2 * (a &&& b) + (x &&& y)) / 2 = a &&& b := by
      have : x &&& y < 2 := by interval_cases x <;> interval_cases y <;> decide
      omega
    rw [Nat.testBit_and, Nat.testBit_succ, Nat.testBit_succ, Nat.testBit_succ,
        e1, e2, e3, Nat.testBit_and]

/-- For a nonzero word, `w ^ (w - 1)` sets exactly the bits up to and
including the least significant set bit. -/
theorem xor_pred_eq (w : Nat) (hw : w ≠ 0) :
    w ^^^ (w - 1) = 2 ^ (lsbPos w + 1) - 1 := by
  induction w using Nat.strong_induction_on with
  | _ w ih =>
    rcases Nat.even_or_odd w with he | ho
    · have h2 : w % 2 = 0 := Nat.even_iff.mp he
      set m := w / 2 with hm
      have hmne : m ≠ 0 := by omega
      have hw1 : w = 2 * m + 0 := by omega
      have hw2 : w - 1 = 2 * (m - 1) + 1 := by omega
      have key := xor_two_mul_add m (m - 1) 0 1 (by omega) (by omega)
      have lhs_eq : w ^^^ (w - 1) = 2 * (m ^^^ (m - 1)) + (0 ^^^ 1) := by
        conv_lhs => rw [hw2, hw1]
        exact key
      have hr : m ^^^ (m - 1) = 2 ^ (lsbPos m + 1) - 1 := ih m (by omega) hmne
      rw [lhs_eq, hr, lsbPos_of_even hw h2, ← hm]
      have hpos : 0 < 2 ^ (lsbPos m + 1) := Nat.pos_pow_of_pos _ (by norm_num)
      have h01 : (0 : Nat) ^^^ 1 = 1 := by decide
      rw [h01, pow_succ, pow_succ]
      omega
    · have h2 : w % 2 = 1 := Nat.odd_iff.mp ho
      set m := w / 2 with hm
      have hw1 : w = 2 * m + 1 := by omega
      have hw2 : w - 1 = 2 * m + 0 := by omega
      have key := xor_two_mul_add m m 1 0 (by omega) (by omega)
      have lhs_eq : w ^^^ (w - 1) = 2 * (m ^^^ m) + (1 ^^^ 0) := by
        conv_lhs => rw [hw2, hw1]
        exact key
      rw [lhs_eq, Nat.xor_self m, lsbPos_of_odd h2]
      decide

/-- A number and its complement relative to an all-ones word share no bit. -/
theorem and_compl_sub : ∀ (k m : Nat), m < 2 ^ k → m &&& (2 ^ k - 1 - m) = 0 := by
  intro k
  induction k with
  | zero => intro m hm; interval_cases m; decide
  | succ k ih =>
    intro m hm
    have hP : 0 < 2 ^ k := Nat.pos_pow_of_pos _ (by norm_num)
    have hP2 : 2 ^ (k + 1) = 2 * 2 ^ k := by rw [pow_succ]; ring
    set a := m / 2 with ha
    set b := m % 2 with hb
    have hma : m = 2 * a + b := by omega
    have haP : a < 2 ^ k := by omega
    have hcompl : 2 ^ (k + 1) - 1 - m = 2 * (2 ^ k - 1 - a) + (1 - b) := by omega
    have key := and_two_mul_add a (2 ^ k - 1 - a) b (1 - b) (by omega) (by omega)
    have lhs_eq : m &&& (2 ^ (k + 1) - 1 - m) = 2 * (a &&& (2 ^ k - 1 - a)) + (b &&& (1 - b)) := by
      conv_lhs => rw [hcompl, hma]
      exact key
    rw [lhs_eq, ih a haP]
    have : b &&& (1 - b) = 0 := by
      have : b < 2 := by omega
      interval_cases b <;> decide
    omega

/-- For a nonzero word below `2 ^ k`, `w & (2 ^ k - w)` (the unsigned
two's complement `w & -w`) isolates the least significant set bit. -/
theorem and_neg_eq : ∀ (k w : Nat), 0 < w → w < 2 ^ k → w &&& (2 ^ k - w) = 2 ^ lsbPos w := by
  intro k
  induction k with
  | zero => intro w h0 h1; omega
  | succ k ih =>
    intro w h0 h1
    have hP : 0 < 2 ^ k := Nat.pos_pow_of_pos _ (by norm_num)
    have hP2 : 2 ^ (k + 1) = 2 * 2 ^ k := by rw [pow_succ]; ring
    rcases Nat.even_or_odd w with he | ho
    · have h2 : w % 2 = 0 := Nat.even_iff.mp he
      set a := w / 2 with ha
      have hw1 : w = 2 * a + 0 := by omega
      have hsub : 2 ^ (k + 1) - w = 2 * (2 ^ k - a) + 0 := by omega
      have key := and_two_mul_add a (2 ^ k - a) 0 0 (by omega) (by omega)
      have lhs_eq : w &&& (2 ^ (k + 1) - w) = 2 * (a &&& (2 ^ k - a)) + (0 &&& 0) := by
        conv_lhs => rw [hsub, hw1]
        exact key
      have hr : a &&& (2 ^ k - a) = 2 ^ lsbPos a := ih a (by omega) (by omega)
      rw [lhs_eq, hr, lsbPos_of_even (by omega) h2, ← ha, pow_succ]
      have h00 : (0 : Nat) &&& 0 = 0 := by decide
      omega
    · have h2 : w % 2 = 1 := Nat.odd_iff.mp ho
      set a := w / 2 with ha
      have hw1 : w = 2 * a + 1 := by omega
      have hsub : 2 ^ (k + 1) - w = 2 * (2 ^ k - 1 - a) + 1 := by omega
      have key := and_two_mul_add a (2 ^ k - 1 - a) 1 1 (by omega) (by omega)
      have lhs_eq : w &&& (2 ^ (k + 1) - w) = 2 * (a &&& (2 ^ k - 1 - a)) + (1 &&& 1) := by
        conv_lhs => rw [hsub, hw1]
        exact key
      rw [lhs_eq, and_compl_sub k a (by omega), lsbPos_of_odd h2]
      decide

/-- The De Bruijn `SEP` lookup inverts the hash on every all-ones-up-to
pattern. -/
theorem sep_lookup : ∀ l : Nat, l < 64 →
    indexDeBruijn64_SEP.getD (u64 ((2 ^ (l + 1) - 1) * debruijnMagicSep) >>> 58) 0 = l := by
  decide

/-- The De Bruijn `ISOL` lookup inverts the hash on every single-bit
pattern. -/
theorem isol_lookup : ∀ l : Nat, l < 64 →
    indexDeBruijn64_ISOL.getD (u64 (2 ^ l * debruijnMagicIsol) >>> 58) 0 = l := by
  decide

/-- One OR-shift step doubles the window of bit positions smeared. -/
theorem smearStep {w x c : Nat}
    (hx : ∀ i, x.testBit i = ((List.range c).any fun t => w.testBit (i + t))) :
    ∀ i, (x ||| x >>> c).testBit i = ((List.range (2 * c)).any fun t => w.testBit (i + t)) := by
  intro i
  rw [Nat.testBit_or, Nat.testBit_shiftRight, hx, hx, Bool.eq_iff_iff]
  simp only [Bool.or_eq_true, List.any_eq_true, List.mem_range]
  constructor
  · rintro (⟨t, ht, hb⟩ | ⟨t, ht, hb⟩)
    · exact ⟨t, by omega, hb⟩
    · refine ⟨c + t, by omega, ?_⟩
      have harith : i + (c + t) = c + i + t := by omega
      rw [harith]; exact hb
  · rintro ⟨t, ht, hb⟩
    by_cases hc : t < c
    · exact Or.inl ⟨t, hc, hb⟩
    · refine Or.inr ⟨t - c, by omega, ?_⟩
      have harith : c + i + (t - c) = i + t := by omega
      rw [harith]; exact hb

theorem smear_testBit (w : Nat) :
    ∀ i, (smear w).testBit i = ((List.range 64).any fun t => w.testBit (i + t)) := by
  have h1 : ∀ i, w.testBit i = ((List.range 1).any fun t => w.testBit (i + t)) := by
    intro i
    rw [Bool.eq_iff_iff]
    simp only [List.any_eq_true, List.mem_range]
    constructor
    · intro hb; exact ⟨0, by omega, by simpa using hb⟩
    · rintro ⟨t, ht, hb⟩
      interval_cases t
      simpa using hb
  have h2 := smearStep h1
  have h4 := smearStep h2
  have h8 := smearStep h4
  have h16 := smearStep h8
  have h32 := smearStep h16
  have h64 := smearStep h32
  intro i
  have hfin := h64 i
  norm_num at hfin
  simpa [smear] using hfin

/-- The smear of a nonzero 64-bit word is the all-ones pattern up to and
including its most significant set bit. -/
theorem smear_eq (w : Nat) (hw : w ≠ 0) (h64 : w < 2 ^ 64) :
    smear w = 2 ^ (msbPos w + 1) - 1 := by
  obtain ⟨hl, hh⟩ := msbPos_spec w hw
  have hm64 : msbPos w < 64 := msbPos_lt_64 hw h64
  apply Nat.eq_of_testBit_eq
  intro i
  rw [smear_testBit, Nat.testBit_two_pow_sub_one, Bool.eq_iff_iff]
  simp only [List.any_eq_true, List.mem_range, decide_eq_true_eq]
  constructor
  · rintro ⟨t, ht, hb⟩
    by_contra hc
    have hgt : msbPos w + 1 ≤ i := by omega
    have hlt : w < 2 ^ (i + t) :=
      lt_of_lt_of_le hh (Nat.pow_le_pow_right (by norm_num) (by omega))
    rw [Nat.testBit_lt_two_pow hlt] at hb
    exact Bool.false_ne_true hb
  · intro hi
    refine ⟨msbPos w - i, by omega, ?_⟩
    have harith : i + (msbPos w - i) = msbPos w := by omega
    rw [harith]
    exact testBit_msbPos hw
/-- Claim C9: for every nonzero 64-bit word, the De Bruijn fallback
implementations (both the `w ^ (w - 1)` form with multiplier
`0x03f79d71b4cb0a89` and the `w & -w` form with multiplier
`0x07EDD5E59A4E28C2`, each shifted right by 58) return the same result
as the hardware bit-scan implementations, and `msb64_de_Bruijn` agrees
with `msb64_intrinsic`. -/
theorem deBruijn_matches_intrinsic (w : Nat) (h0 : 0 < w) (h64 : isU64 w) :
    lsb64_de_Bruijn w = lsb64_intrinsic w ∧
    lsb64_de_Bruijn_isol w = lsb64_intrinsic w ∧
    msb64_de_Bruijn w = msb64_intrinsic w := by
  have hw : w ≠ 0 := by omega
  have h64' : w < 2 ^ 64 := h64
  refine ⟨?_, ?_, ?_⟩
  · rw [lsb64_de_Bruijn, lsb64_intrinsic, if_neg hw, if_neg hw, xor_pred_eq w hw,
        sep_lookup (lsbPos w) (lsbPos_lt_64 hw h64')]
  · rw [lsb64_de_Bruijn_isol, lsb64_intrinsic, if_neg hw, if_neg hw, and_neg_eq 64 w h0 h64',
        isol_lookup (lsbPos w) (lsbPos_lt_64 hw h64')]
  · rw [msb64_de_Bruijn, msb64_intrinsic, if_neg hw, if_neg hw, smear_eq w hw h64',
        sep_lookup (msbPos w) (msbPos_lt_64 hw h64')]

/-- Witness for C9 at the concrete word 40 (binary 101000). -/
theorem deBruijn_matches_intrinsic_witness :
    lsb64_de_Bruijn 40 = lsb64_intrinsic 40 ∧
    lsb64_de_Bruijn_isol 40 = lsb64_intrinsic 40 ∧
    msb64_de_Bruijn 40 = msb64_intrinsic 40 :=
  deBruijn_matches_intrinsic 40 (by decide) (by show (40 : Nat) < 2 ^ 64; decide)

/-! ## C1: the sparse dual-bitset scan clears the wrong bit -/

/-- Claim C1 (evaluation at the failing input): for the sparse scanning
bitset with bit 70 set (record for block 1) and an `other` bitset with
bits 6 and 70 set, the dual scan step `next_bit(other)` after
`init_scan(NON_DESTRUCTIVE)` returns bit 70 but erases bit 6 — the
offset of 70 inside its block — from `other`, leaving bit 70 set in
`other`.  The code calls `bitset.erase_bit(posInBB)` with the in-block
offset instead of the returned bit. -/
theorem sparse_dual_scan_wrong_bit :
    (initScanSp ⟨2, [⟨1, 2 ^ 6⟩], -1, 65⟩ .nonDestructive =
      .ok ⟨2, [⟨1, 2 ^ 6⟩], 0, 65⟩) ∧
    (nextBitSpDual ⟨2, [⟨1, 2 ^ 6⟩], 0, 65⟩ ⟨2, [⟨0, 2 ^ 6⟩, ⟨1, 2 ^ 6⟩], -1, 65⟩).1 = 70 ∧
    (nextBitSpDual ⟨2, [⟨1, 2 ^ 6⟩], 0, 65⟩ ⟨2, [⟨0, 2 ^ 6⟩, ⟨1, 2 ^ 6⟩], -1, 65⟩).2.2.vBB =
      [⟨0, 0⟩, ⟨1, 2 ^ 6⟩] ∧
    hasBitSp [(⟨0, 0⟩ : PB), ⟨1, 2 ^ 6⟩] 70 ∧
    ¬ hasBitSp [(⟨0, 0⟩ : PB), ⟨1, 2 ^ 6⟩] 6 := by
  refine ⟨rfl, by decide, by decide, by decide, by decide⟩

/-! ## C2: `set_bit(int, int)` can duplicate a record -/

/-- Claim C2 (evaluation at the failing input): on the sparse bitset of
capacity 4 blocks holding bit 128 (a single record for block 2),
`set_bit(64, 255)` skips the existing block-2 record and appends a
fresh all-ones block 2, leaving records with indices `[1, 2, 2, 3]` —
a duplicate — although the input satisfied the strict sortedness
invariant S1. -/
theorem setBitRange_duplicate_record :
    sortedIdx ([⟨2, 1⟩] : List PB) ∧
    (setBitRange ⟨4, [⟨2, 1⟩]⟩ 64 255).vBB.map PB.idx = [1, 2, 2, 3] ∧
    ¬ sortedIdx (setBitRange ⟨4, [⟨2, 1⟩]⟩ 64 255).vBB := by
  refine ⟨by decide, by decide, by decide⟩

/-! ## C7: `is_empty` checks the sentinels, not the blocks -/

/-- Counterexample to claim C7: a sentinel bitset with one block, bit 0
set and window `(0, 0)` satisfies the window invariant; `erase_bit()`
zeroes every block but keeps the window, after which every block is
zero yet `is_empty()` still returns false. -/
theorem isEmptySen_not_block_emptiness :
    windowInv ⟨1, [1], 0, 0⟩ ∧
    windowInv (eraseBitSen ⟨1, [1], 0, 0⟩) ∧
    (∀ j, j < (eraseBitSen ⟨1, [1], 0, 0⟩).vBB.length →
      (eraseBitSen ⟨1, [1], 0, 0⟩).vBB.getD j 0 = 0) ∧
    isEmptySen (eraseBitSen ⟨1, [1], 0, 0⟩) = false := by
  refine ⟨by decide, by decide, by decide, by decide⟩

/-- Claim C7 (amended): for a sentinel bitset whose window is well
formed (both sentinels `noBit`, or `0 ≤ low ≤ high < N`) and satisfies
the window invariant, `is_empty()` returns true exactly when a sentinel
is `noBit`; this implies every block is zero, but the converse fails
after operations such as `erase_bit()` that zero the window without
updating the sentinels. -/
theorem isEmptySen_spec (st : BBSentinel) (hInv : windowInv st)
    (hWF : (st.bbl = -1 ∧ st.bbh = -1) ∨
      (0 ≤ st.bbl ∧ st.bbl ≤ st.bbh ∧ st.bbh < (st.vBB.length : Int))) :
    (isEmptySen st = true ↔ (st.bbl = -1 ∨ st.bbh = -1)) ∧
    (isEmptySen st = true → ∀ j, j < st.vBB.length → st.vBB.getD j 0 = 0) := by
  refine ⟨by simp [isEmptySen], ?_⟩
  intro h j hj
  have hor : st.bbl = -1 ∨ st.bbh = -1 := by simpa [isEmptySen] using h
  rcases hWF with ⟨h1, h2⟩ | ⟨h1, h2, h3⟩
  · exact hInv j hj (Or.inr (by rw [h2]; omega))
  · rcases hor with h4 | h4 <;> omega

/-- Witness for the amended C7 at the empty sentinel bitset. -/
theorem isEmptySen_spec_witness :
    (isEmptySen ⟨1, [0], -1, -1⟩ = true ↔
      ((⟨1, [0], -1, -1⟩ : BBSentinel).bbl = -1 ∨ (⟨1, [0], -1, -1⟩ : BBSentinel).bbh = -1)) ∧
    (isEmptySen ⟨1, [0], -1, -1⟩ = true →
      ∀ j, j < (⟨1, [0], -1, -1⟩ : BBSentinel).vBB.length →
        (⟨1, [0], -1, -1⟩ : BBSentinel).vBB.getD j 0 = 0) :=
  isEmptySen_spec ⟨1, [0], -1, -1⟩ (by decide) (Or.inl (by exact ⟨rfl, rfl⟩))

/-! ## C8: sparse scan initialisation on an empty record vector -/

/-- Claim C8: both `init_scan` overloads of the sparse scanning bitset
fail with the typed `ScanOnEmpty` error on an empty record vector, in
every mode and for every starting bit, before any mutation (the
functional embedding returns the error with the state untouched). -/
theorem initScanSp_empty_fails (st : BBScanSp) (h : st.vBB = []) :
    (∀ sct, initScanSp st sct = .error .scanOnEmpty) ∧
    (∀ firstBit sct, initScanSpFrom st firstBit sct = .error .scanOnEmpty) := by
  constructor
  · intro sct; simp [initScanSp, h]
  · intro firstBit sct; simp [initScanSpFrom, h]

/-- Witness for C8 on a concrete empty sparse scanning bitset. -/
theorem initScanSp_empty_fails_witness :
    initScanSp ⟨4, [], -1, 65⟩ .destructive = .error .scanOnEmpty ∧
    initScanSpFrom ⟨4, [], -1, 65⟩ 7 .nonDestructive = .error .scanOnEmpty :=
  ⟨(initScanSp_empty_fails ⟨4, [], -1, 65⟩ rfl).1 .destructive,
   (initScanSp_empty_fails ⟨4, [], -1, 65⟩ rfl).2 7 .nonDestructive⟩

/-! ## Lemmas on sparse membership and sorting -/

theorem hasBitSp_nil (b : Nat) : ¬ hasBitSp [] b := by simp [hasBitSp]

theorem hasBitSp_cons (p : PB) (L : List PB) (b : Nat) :
    hasBitSp (p :: L) b ↔ (p.idx = b / 64 ∧ p.bb.testBit (b % 64)) ∨ hasBitSp L b := by
  simp [hasBitSp]

theorem hasBitSp_append (L M : List PB) (b : Nat) :
    hasBitSp (L ++ M) b ↔ hasBitSp L b ∨ hasBitSp M b := by
  constructor
  · rintro ⟨p, hp, h2⟩
    rcases List.mem_append.mp hp with h | h
    · exact Or.inl ⟨p, h, h2⟩
    · exact Or.inr ⟨p, h, h2⟩
  · rintro (⟨p, hp, h2⟩ | ⟨p, hp, h2⟩)
    · exact ⟨p, List.mem_append.mpr (Or.inl hp), h2⟩
    · exact ⟨p, List.mem_append.mpr (Or.inr hp), h2⟩

theorem hasBitSp_perm {L M : List PB} (h : L.Perm M) (b : Nat) :
    hasBitSp L b ↔ hasBitSp M b := by
  constructor
  · rintro ⟨p, hp, h2⟩; exact ⟨p, h.mem_iff.mp hp, h2⟩
  · rintro ⟨p, hp, h2⟩; exact ⟨p, h.mem_iff.mpr hp, h2⟩

theorem insertByIdx_perm (p : PB) : ∀ l : List PB, (insertByIdx p l).Perm (p :: l) := by
  intro l
  induction l with
  | nil => simp [insertByIdx]
  | cons q t ih =>
    rw [insertByIdx]
    by_cases h : p.idx ≤ q.idx
    · rw [if_pos h]
    · rw [if_neg h]
      exact (List.Perm.cons q ih).trans (List.Perm.swap p q t)

theorem sortIdxList_perm : ∀ l : List PB, (sortIdxList l).Perm l := by
  intro l
  induction l with
  | nil => simp [sortIdxList]
  | cons p t ih =>
    rw [sortIdxList]
    exact (insertByIdx_perm p (sortIdxList t)).trans (List.Perm.cons p ih)

/-! ## C3: `operator|=` computes the union -/

theorem hasBitSp_middle (X Y : List PB) (q : PB) (b : Nat) :
    hasBitSp (X ++ q :: Y) b ↔
      (q.idx = b / 64 ∧ q.bb.testBit (b % 64)) ∨ hasBitSp (X ++ Y) b := by
  rw [hasBitSp_append, hasBitSp_cons, hasBitSp_append]
  tauto

theorem orLoopF_hasBit :
    ∀ (fuel : Nat) (l r : List PB), l.length + r.length < fuel → ∀ b,
      (hasBitSp ((orLoopF fuel l r).1 ++ (orLoopF fuel l r).2.1) b ↔
        hasBitSp l b ∨ hasBitSp r b) := by
  intro fuel
  induction fuel with
  | zero => intro l r h; omega
  | succ f ih =>
    intro l r h b
    cases l with
    | nil =>
      cases r with
      | nil => show hasBitSp ([] ++ []) b ↔ _; simp [hasBitSp]
      | cons q r => show hasBitSp ([] ++ (q :: r)) b ↔ _; simp [hasBitSp]
    | cons a l =>
      cases r with
      | nil => show hasBitSp ((a :: l) ++ []) b ↔ _; simp [hasBitSp]
      | cons q r =>
        rw [orLoopF]
        by_cases h1 : a.idx < q.idx
        · rw [if_pos h1]
          show hasBitSp (a :: ((orLoopF f l (q :: r)).1 ++ (orLoopF f l (q :: r)).2.1)) b ↔ _
          rw [hasBitSp_cons, ih l (q :: r) (by simp at h ⊢; omega) b, hasBitSp_cons a l b]
          tauto
        · rw [if_neg h1]
          by_cases h2 : q.idx < a.idx
          · rw [if_pos h2]
            show hasBitSp ((orLoopF f (a :: l) r).1 ++ q :: (orLoopF f (a :: l) r).2.1) b ↔ _
            rw [hasBitSp_middle, ih (a :: l) r (by simp at h ⊢; omega) b, hasBitSp_cons q r b]
            tauto
          · rw [if_neg h2]
            have heq : a.idx = q.idx := by omega
            show hasBitSp ((⟨a.idx, a.bb ||| q.bb⟩ : PB) ::
              ((orLoopF f l r).1 ++ (orLoopF f l r).2.1)) b ↔ _
            rw [hasBitSp_cons, ih l r (by simp at h ⊢; omega) b,
                hasBitSp_cons a l b, hasBitSp_cons q r b]
            simp only [Nat.testBit_or, Bool.or_eq_true, heq]
            tauto

theorem orEq_hasBit (A B : BitSetSp) (b : Nat) :
    hasBitSp (orEq A B).vBB b ↔ hasBitSp A.vBB b ∨ hasBitSp B.vBB b := by
  have hfuel : A.vBB.length + B.vBB.length < A.vBB.length + B.vBB.length + 1 := by omega
  have hcore := orLoopF_hasBit (A.vBB.length + B.vBB.length + 1) A.vBB B.vBB hfuel b
  show hasBitSp (if (orLoop A.vBB B.vBB).2.2 then
      sortIdxList ((orLoop A.vBB B.vBB).1 ++ (orLoop A.vBB B.vBB).2.1)
    else (orLoop A.vBB B.vBB).1 ++ (orLoop A.vBB B.vBB).2.1) b ↔ _
  by_cases hflag : (orLoop A.vBB B.vBB).2.2
  · rw [if_pos hflag, hasBitSp_perm (sortIdxList_perm _) b]
    exact hcore
  · rw [if_neg hflag]
    exact hcore

set_option maxRecDepth 100000 in
/-- Claim C3: for sparse bitsets of equal capacity satisfying the
sorted-records invariant, `A |= B` makes a bit set in `A` exactly when
it was set in `A` before or is set in `B`; and on the concrete example
(`A` with bits 5, 130, 500 and `B` with bits 5, 65, 500, 900) the
result has `size` 5 and ascending enumeration 5, 65, 130, 500, 900.
`B` is passed by const reference in the source and is unchanged by
construction in this embedding. -/
theorem orEq_is_union :
    (∀ (A B : BitSetSp), sortedIdx A.vBB → sortedIdx B.vBB → A.nBB = B.nBB →
      ∀ b, hasBitSp (orEq A B).vBB b ↔ (hasBitSp A.vBB b ∨ hasBitSp B.vBB b)) ∧
    (sizeSp (orEq ⟨15, [⟨0, 2 ^ 5⟩, ⟨2, 2 ^ 2⟩, ⟨7, 2 ^ 52⟩]⟩
        ⟨15, [⟨0, 2 ^ 5⟩, ⟨1, 2 ^ 1⟩, ⟨7, 2 ^ 52⟩, ⟨14, 2 ^ 4⟩]⟩) = 5 ∧
      bitsOfSp (orEq ⟨15, [⟨0, 2 ^ 5⟩, ⟨2, 2 ^ 2⟩, ⟨7, 2 ^ 52⟩]⟩
        ⟨15, [⟨0, 2 ^ 5⟩, ⟨1, 2 ^ 1⟩, ⟨7, 2 ^ 52⟩, ⟨14, 2 ^ 4⟩]⟩) = [5, 65, 130, 500, 900]) := by
  refine ⟨fun A B _ _ _ b => orEq_hasBit A B b, by decide, by decide⟩

/-- Witness for C3: the union equivalence applied to two concrete sorted
sparse bitsets at bit 65. -/
theorem orEq_is_union_witness :
    hasBitSp (orEq ⟨2, [⟨0, 2 ^ 5⟩]⟩ ⟨2, [⟨1, 2 ^ 1⟩]⟩).vBB 65 ↔
      (hasBitSp [(⟨0, 2 ^ 5⟩ : PB)] 65 ∨ hasBitSp [(⟨1, 2 ^ 1⟩ : PB)] 65) :=
  orEq_is_union.1 ⟨2, [⟨0, 2 ^ 5⟩]⟩ ⟨2, [⟨1, 2 ^ 1⟩]⟩ (by decide) (by decide) rfl 65

/-! ## C10: `&=` and `erase_bit(rhs)` never insert or remove records -/

theorem lookupIdx_cons_ne {q : PB} {r : List PB} {i : Nat} (h : q.idx ≠ i) :
    lookupIdx (q :: r) i = lookupIdx r i :=
  List.find?_cons_of_neg _ (by simp [h])

theorem lookupIdx_cons_self (q : PB) (r : List PB) : lookupIdx (q :: r) q.idx = some q :=
  List.find?_cons_of_pos _ (by simp)

theorem lookupIdx_none {B : List PB} {i : Nat} (h : ∀ q ∈ B, i < q.idx) :
    lookupIdx B i = none :=
  List.find?_eq_none.mpr (fun q hq => by simp only [decide_eq_true_eq]; have := h q hq; omega)

theorem lookupIdx_none_of_head {q : PB} {r : List PB} {i : Nat}
    (hB : sortedIdx (q :: r)) (h : i < q.idx) : lookupIdx (q :: r) i = none := by
  rcases List.pairwise_cons.mp hB with ⟨hq, _⟩
  apply lookupIdx_none
  intro x hx
  rcases List.mem_cons.mp hx with hxq | hxr
  · subst hxq; exact h
  · have := hq x hxr; omega

theorem andLoopF_eq :
    ∀ (fuel : Nat) (l r : List PB), l.length + r.length < fuel →
      sortedIdx l → sortedIdx r → andLoopF fuel l r = l.map (andMapped r) := by
  intro fuel
  induction fuel with
  | zero => intro l r h; omega
  | succ f ih =>
    intro l r h hA hB
    cases l with
    | nil => cases r <;> rfl
    | cons a l =>
      cases r with
      | nil =>
        show (⟨a.idx, 0⟩ : PB) :: andLoopF f l [] = _
        rw [List.map_cons, ih l [] (by simp at h ⊢; omega) (List.Pairwise.of_cons hA) hB]
        rfl
      | cons q r =>
        rw [andLoopF]
        by_cases h1 : a.idx < q.idx
        · rw [if_pos h1, List.map_cons,
              ih l (q :: r) (by simp at h ⊢; omega) (List.Pairwise.of_cons hA) hB]
          have hnone : lookupIdx (q :: r) a.idx = none := lookupIdx_none_of_head hB h1
          simp [andMapped, hnone]
        · rw [if_neg h1]
          by_cases h2 : q.idx < a.idx
          · rw [if_pos h2,
                ih (a :: l) r (by simp at h ⊢; omega) hA (List.Pairwise.of_cons hB)]
            apply List.map_congr_left
            intro p hp
            have hne : q.idx ≠ p.idx := by
              rcases List.mem_cons.mp hp with hpa | hpl
              · subst hpa; omega
              · have := (List.pairwise_cons.mp hA).1 p hpl; omega
            simp [andMapped, lookupIdx_cons_ne hne]
          · have heq : a.idx = q.idx := by omega
            rw [if_neg h2, List.map_cons,
                ih l r (by simp at h ⊢; omega) (List.Pairwise.of_cons hA)
                  (List.Pairwise.of_cons hB)]
            have hlook : lookupIdx (q :: r) a.idx = some q := by
              rw [heq]; exact lookupIdx_cons_self q r
            have hhead : andMapped (q :: r) a = ⟨a.idx, a.bb &&& q.bb⟩ := by
              simp [andMapped, hlook]
            rw [hhead]
            congr 1
            apply List.map_congr_left
            intro p hp
            have hne : q.idx ≠ p.idx := by
              have := (List.pairwise_cons.mp hA).1 p hp; omega
            simp [andMapped, lookupIdx_cons_ne hne]

theorem eraseLoopF_eq :
    ∀ (fuel : Nat) (l r : List PB), l.length + r.length < fuel →
      sortedIdx l → sortedIdx r → eraseLoopF fuel l r = l.map (eraseMapped r) := by
  intro fuel
  induction fuel with
  | zero => intro l r h; omega
  | succ f ih =>
    intro l r h hA hB
    cases l with
    | nil => cases r <;> rfl
    | cons a l =>
      cases r with
      | nil =>
        show a :: l = _
        have hid : ∀ p ∈ a :: l, p = eraseMapped [] p := fun p _ => rfl
        calc a :: l = (a :: l).map id := (List.map_id _).symm
        _ = (a :: l).map (eraseMapped []) := List.map_congr_left (fun p _ => rfl)
      | cons q r =>
        rw [eraseLoopF]
        by_cases h1 : a.idx < q.idx
        · rw [if_pos h1, List.map_cons,
              ih l (q :: r) (by simp at h ⊢; omega) (List.Pairwise.of_cons hA) hB]
          have hnone : lookupIdx (q :: r) a.idx = none := lookupIdx_none_of_head hB h1
          simp [eraseMapped, hnone]
        · rw [if_neg h1]
          by_cases h2 : q.idx < a.idx
          · rw [if_pos h2,
                ih (a :: l) r (by simp at h ⊢; omega) hA (List.Pairwise.of_cons hB)]
            apply List.map_congr_left
            intro p hp
            have hne : q.idx ≠ p.idx := by
              rcases List.mem_cons.mp hp with hpa | hpl
              · subst hpa; omega
              · have := (List.pairwise_cons.mp hA).1 p hpl; omega
            simp [eraseMapped, lookupIdx_cons_ne hne]
          · have heq : a.idx = q.idx := by omega
            rw [if_neg h2, List.map_cons,
                ih l r (by simp at h ⊢; omega) (List.Pairwise.of_cons hA)
                  (List.Pairwise.of_cons hB)]
            have hlook : lookupIdx (q :: r) a.idx = some q := by
              rw [heq]; exact lookupIdx_cons_self q r
            have hhead : eraseMapped (q :: r) a = ⟨a.idx, a.bb &&& ((2 ^ 64 - 1) ^^^ q.bb)⟩ := by
              simp [eraseMapped, hlook]
            rw [hhead]
            congr 1
            apply List.map_congr_left
            intro p hp
            have hne : q.idx ≠ p.idx := by
              have := (List.pairwise_cons.mp hA).1 p hp; omega
            simp [eraseMapped, lookupIdx_cons_ne hne]

/-- Claim C10: for sparse bitsets of equal capacity satisfying the
sorted-records invariant, `A &= B` and `A.erase_bit(B)` never insert or
remove records: the sequence of record indices of `A` is unchanged, and
each record keeps its index while its bits become `bb & B(idx)` (or `0`
when `B` has no matching record) under `&=`, and `bb & ~B(idx)` (or
unchanged bits) under `erase_bit` — zero-bit records persist, the lazy
no-compaction policy. -/
theorem sparse_and_erase_frame (A B : BitSetSp) (hA : sortedIdx A.vBB)
    (hB : sortedIdx B.vBB) (hcap : A.nBB = B.nBB) :
    ((andEq A B).vBB.map PB.idx = A.vBB.map PB.idx) ∧
    ((eraseRhs A B).vBB.map PB.idx = A.vBB.map PB.idx) ∧
    ((andEq A B).vBB = A.vBB.map (andMapped B.vBB)) ∧
    ((eraseRhs A B).vBB = A.vBB.map (eraseMapped B.vBB)) := by
  have h1 : (andEq A B).vBB = A.vBB.map (andMapped B.vBB) :=
    andLoopF_eq (A.vBB.length + B.vBB.length + 1) A.vBB B.vBB (by omega) hA hB
  have h2 : (eraseRhs A B).vBB = A.vBB.map (eraseMapped B.vBB) :=
    eraseLoopF_eq (A.vBB.length + B.vBB.length + 1) A.vBB B.vBB (by omega) hA hB
  refine ⟨?_, ?_, h1, h2⟩
  · rw [h1, List.map_map]
    apply List.map_congr_left
    intro p _
    cases hlook : lookupIdx B.vBB p.idx <;> simp [andMapped, hlook, Function.comp]
  · rw [h2, List.map_map]
    apply List.map_congr_left
    intro p _
    cases hlook : lookupIdx B.vBB p.idx <;> simp [eraseMapped, hlook, Function.comp]

/-- Witness for C10 on concrete sorted sparse bitsets. -/
theorem sparse_and_erase_frame_witness :
    ((andEq ⟨2, [⟨0, 3⟩, ⟨1, 5⟩]⟩ ⟨2, [⟨1, 1⟩]⟩).vBB.map PB.idx =
      ([⟨0, 3⟩, ⟨1, 5⟩] : List PB).map PB.idx) ∧
    ((eraseRhs ⟨2, [⟨0, 3⟩, ⟨1, 5⟩]⟩ ⟨2, [⟨1, 1⟩]⟩).vBB.map PB.idx =
      ([⟨0, 3⟩, ⟨1, 5⟩] : List PB).map PB.idx) ∧
    ((andEq ⟨2, [⟨0, 3⟩, ⟨1, 5⟩]⟩ ⟨2, [⟨1, 1⟩]⟩).vBB =
      ([⟨0, 3⟩, ⟨1, 5⟩] : List PB).map (andMapped [⟨1, 1⟩])) ∧
    ((eraseRhs ⟨2, [⟨0, 3⟩, ⟨1, 5⟩]⟩ ⟨2, [⟨1, 1⟩]⟩).vBB =
      ([⟨0, 3⟩, ⟨1, 5⟩] : List PB).map (eraseMapped [⟨1, 1⟩])) :=
  sparse_and_erase_frame ⟨2, [⟨0, 3⟩, ⟨1, 5⟩]⟩ ⟨2, [⟨1, 1⟩]⟩ (by decide) (by decide) rfl

/-! ## Lemmas on the sentinel searches and bit clearing -/

theorem firstNzInF_spec_some :
    ∀ (fuel : Nat) (v : List Nat) (hi lo j : Nat), hi + 1 - lo < fuel →
      firstNzInF v hi fuel lo = some j →
      lo ≤ j ∧ j ≤ hi ∧ v.getD j 0 ≠ 0 ∧ ∀ k, lo ≤ k → k < j → v.getD k 0 = 0 := by
  intro fuel
  induction fuel with
  | zero => intro v hi lo j h; omega
  | succ f ih =>
    intro v hi lo j h hres
    rw [firstNzInF] at hres
    by_cases hle : lo ≤ hi
    · rw [if_pos hle] at hres
      by_cases hnz : v.getD lo 0 ≠ 0
      · rw [if_pos hnz] at hres
        cases hres
        exact ⟨le_refl _, hle, hnz, fun k hk1 hk2 => by omega⟩
      · rw [if_neg hnz] at hres
        obtain ⟨h1, h2, h3, h4⟩ := ih v hi (lo + 1) j (by omega) hres
        refine ⟨by omega, h2, h3, ?_⟩
        intro k hk1 hk2
        by_cases hkl : k = lo
        · subst hkl; omega
        · exact h4 k (by omega) hk2
    · rw [if_neg hle] at hres
      cases hres

theorem firstNzInF_spec_none :
    ∀ (fuel : Nat) (v : List Nat) (hi lo : Nat), hi + 1 - lo < fuel →
      firstNzInF v hi fuel lo = none →
      ∀ k, lo ≤ k → k ≤ hi → v.getD k 0 = 0 := by
  intro fuel
  induction fuel with
  | zero => intro v hi lo h; omega
  | succ f ih =>
    intro v hi lo h hres k hk1 hk2
    rw [firstNzInF] at hres
    by_cases hle : lo ≤ hi
    · rw [if_pos hle] at hres
      by_cases hnz : v.getD lo 0 ≠ 0
      · rw [if_pos hnz] at hres; cases hres
      · rw [if_neg hnz] at hres
        by_cases hkl : k = lo
        · subst hkl; omega
        · exact ih v hi (lo + 1) (by omega) hres k (by omega) hk2
    · omega

theorem lastNzIn_spec_some :
    ∀ (hi : Nat) (v : List Nat) (lo j : Nat), lastNzIn v lo hi = some j →
      lo ≤ j ∧ j ≤ hi ∧ v.getD j 0 ≠ 0 ∧ ∀ k, j < k → k ≤ hi → v.getD k 0 = 0 := by
  intro hi
  induction hi with
  | zero =>
    intro v lo j hres
    rw [lastNzIn] at hres
    by_cases hlo : 0 < lo
    · rw [if_pos hlo] at hres; cases hres
    · rw [if_neg hlo] at hres
      by_cases hnz : v.getD 0 0 ≠ 0
      · rw [if_pos hnz] at hres
        cases hres
        exact ⟨by omega, le_refl _, hnz, fun k hk1 hk2 => by omega⟩
      · rw [if_neg hnz] at hres; cases hres
  | succ hi ih =>
    intro v lo j hres
    rw [lastNzIn] at hres
    by_cases hlo : hi + 1 < lo
    · rw [if_pos hlo] at hres; cases hres
    · rw [if_neg hlo] at hres
      by_cases hnz : v.getD (hi + 1) 0 ≠ 0
      · rw [if_pos hnz] at hres
        cases hres
        exact ⟨by omega, le_refl _, hnz, fun k hk1 hk2 => by omega⟩
      · rw [if_neg hnz] at hres
        obtain ⟨h1, h2, h3, h4⟩ := ih v lo j hres
        refine ⟨h1, by omega, h3, ?_⟩
        intro k hk1 hk2
        by_cases hkh : k = hi + 1
        · subst hkh; simpa using hnz
        · exact h4 k hk1 (by omega)

theorem lastNzIn_spec_none :
    ∀ (hi : Nat) (v : List Nat) (lo : Nat), lastNzIn v lo hi = none →
      ∀ k, lo ≤ k → k ≤ hi → v.getD k 0 = 0 := by
  intro hi
  induction hi with
  | zero =>
    intro v lo hres k hk1 hk2
    rw [lastNzIn] at hres
    by_cases hlo : 0 < lo
    · omega
    · rw [if_neg hlo] at hres
      by_cases hnz : v.getD 0 0 ≠ 0
      · rw [if_pos hnz] at hres; cases hres
      · have : k = 0 := by omega
        subst this
        simpa using hnz
  | succ hi ih =>
    intro v lo hres k hk1 hk2
    rw [lastNzIn] at hres
    by_cases hlo : hi + 1 < lo
    · omega
    · rw [if_neg hlo] at hres
      by_cases hnz : v.getD (hi + 1) 0 ≠ 0
      · rw [if_pos hnz] at hres; cases hres
      · rw [if_neg hnz] at hres
        by_cases hkh : k = hi + 1
        · subst hkh; simpa using hnz
        · exact ih v lo hres k hk1 (by omega)

theorem length_clearBitBlock (v : List Nat) (i p : Nat) :
    (clearBitBlock v i p).length = v.length := by
  simp [clearBitBlock]

theorem getD_clearBitBlock_self (v : List Nat) (i p : Nat) (h : i < v.length) :
    (clearBitBlock v i p).getD i 0 = v.getD i 0 &&& ((2 ^ 64 - 1) ^^^ 2 ^ p) := by
  rw [clearBitBlock, List.getD_eq_getElem?_getD, List.getElem?_set,
      if_pos rfl, if_pos h, List.getD_eq_getElem?_getD]
  rfl

theorem getD_clearBitBlock_ne (v : List Nat) (i p j : Nat) (h : j ≠ i) :
    (clearBitBlock v i p).getD j 0 = v.getD j 0 := by
  rw [clearBitBlock, List.getD_eq_getElem?_getD,
      List.getElem?_set_ne (fun hc => h hc.symm), ← List.getD_eq_getElem?_getD]

theorem getD_mem_lt {v : List Nat} {i : Nat} (hU : blocksU64 v) (h : i < v.length) :
    v.getD i 0 < 2 ^ 64 := by
  rw [List.getD_eq_getElem v 0 h]
  exact hU _ (List.getElem_mem h)

theorem testBit_clearMask (w p t : Nat) (hw : w < 2 ^ 64) (hp : p < 64) :
    (w &&& ((2 ^ 64 - 1) ^^^ 2 ^ p)).testBit t = (w.testBit t && !(decide (t = p))) := by
  rw [Nat.testBit_and, Nat.testBit_xor, Nat.testBit_two_pow_sub_one, Nat.testBit_two_pow]
  by_cases ht : t < 64
  · have hd : decide (t < 64) = true := by simp [ht]
    rw [hd]
    have : ∀ x : Bool, (true ^^ x) = !x := by decide
    rw [this]
    have : decide (p = t) = decide (t = p) := by
      by_cases h : t = p
      · simp [h]
      · rw [decide_eq_false (fun hc => h hc.symm), decide_eq_false h]
    rw [this]
  · have hz : w.testBit t = false :=
      Nat.testBit_lt_two_pow (lt_of_lt_of_le hw (Nat.pow_le_pow_right (by norm_num) (by omega)))
    simp [hz]

theorem hasBitD_clearBitBlock (v : List Nat) (hU : blocksU64 v) (b : Nat)
    (hlt : b / 64 < v.length) :
    ∀ x, hasBitD (clearBitBlock v (b / 64) (b % 64)) x =
      (hasBitD v x && !(decide (x = b))) := by
  intro x
  by_cases hblk : x / 64 = b / 64
  · rw [hasBitD, hasBitD, hblk, getD_clearBitBlock_self v _ _ hlt,
        testBit_clearMask _ _ _ (getD_mem_lt hU hlt) (by omega)]
    congr 1
    have : (x % 64 = b % 64) ↔ (x = b) := by omega
    simp [this]
  · rw [hasBitD, hasBitD, getD_clearBitBlock_ne v _ _ _ hblk]
    have hne : ¬(x = b) := fun hc => hblk (by rw [hc])
    simp [hne]

theorem eraseBitAndUpdate_eq (st : BBSentinel) (nBit : Nat)
    (h : ¬(st.bbl = -1 ∨ st.bbh = -1)) :
    eraseBitAndUpdate st nBit =
      (if (clearBitBlock st.vBB (nBit / 64) (nBit % 64)).getD (nBit / 64) 0 = 0 then
        (if st.bbl = ((nBit / 64 : Nat) : Int) then
          updateSentinelsLow ⟨st.nBB, clearBitBlock st.vBB (nBit / 64) (nBit % 64), st.bbl, st.bbh⟩
         else if st.bbh = ((nBit / 64 : Nat) : Int) then
          updateSentinelsHigh ⟨st.nBB, clearBitBlock st.vBB (nBit / 64) (nBit % 64), st.bbl, st.bbh⟩
         else ⟨st.nBB, clearBitBlock st.vBB (nBit / 64) (nBit % 64), st.bbl, st.bbh⟩)
       else ⟨st.nBB, clearBitBlock st.vBB (nBit / 64) (nBit % 64), st.bbl, st.bbh⟩) := by
  rw [eraseBitAndUpdate, if_neg h]

theorem updateSentinelsLow_eq (s : BBSentinel) (h1 : ¬s.bbl = -1)
    (h2 : s.vBB.getD s.bbl.toNat 0 = 0) :
    updateSentinelsLow s =
      (match firstNzIn s.vBB (s.bbl.toNat + 1) s.bbh.toNat with
        | some j => { s with bbl := (j : Int) }
        | none => { s with bbl := -1, bbh := -1 }) := by
  rw [updateSentinelsLow, if_neg h1, if_neg (not_not_intro h2)]

theorem updateSentinelsHigh_eq (s : BBSentinel) (h1 : ¬s.bbh = -1)
    (h2 : s.vBB.getD s.bbh.toNat 0 = 0) :
    updateSentinelsHigh s =
      (match (if s.bbh.toNat = 0 then none else lastNzIn s.vBB s.bbl.toNat (s.bbh.toNat - 1)) with
        | some j => { s with bbh := (j : Int) }
        | none => { s with bbl := -1, bbh := -1 }) := by
  rw [updateSentinelsHigh, if_neg h1, if_neg (not_not_intro h2)]

theorem updateSentinelsLow_vBB (s : BBSentinel) : (updateSentinelsLow s).vBB = s.vBB := by
  rw [updateSentinelsLow]
  split
  · rfl
  split
  · rfl
  cases h : firstNzIn s.vBB (s.bbl.toNat + 1) s.bbh.toNat <;> rfl

theorem updateSentinelsHigh_vBB (s : BBSentinel) : (updateSentinelsHigh s).vBB = s.vBB := by
  rw [updateSentinelsHigh]
  split
  · rfl
  split
  · rfl
  dsimp only
  by_cases h0 : s.bbh.toNat = 0
  · rw [if_pos h0]
  · rw [if_neg h0]
    cases h : lastNzIn s.vBB s.bbl.toNat (s.bbh.toNat - 1) <;> rfl

theorem eraseBitAndUpdate_vBB (st : BBSentinel) (nBit : Nat)
    (h : ¬(st.bbl = -1 ∨ st.bbh = -1)) :
    (eraseBitAndUpdate st nBit).vBB = clearBitBlock st.vBB (nBit / 64) (nBit % 64) := by
  rw [eraseBitAndUpdate_eq st nBit h]
  by_cases hz : (clearBitBlock st.vBB (nBit / 64) (nBit % 64)).getD (nBit / 64) 0 = 0
  · rw [if_pos hz]
    by_cases hL : st.bbl = ((nBit / 64 : Nat) : Int)
    · rw [if_pos hL, updateSentinelsLow_vBB]
    · rw [if_neg hL]
      by_cases hH : st.bbh = ((nBit / 64 : Nat) : Int)
      · rw [if_pos hH, updateSentinelsHigh_vBB]
      · rw [if_neg hH]
  · rw [if_neg hz]

/-- Wrapper form of the `find_if` specification for `firstNzIn`. -/
theorem firstNzIn_some (v : List Nat) (lo hi j : Nat) (h : firstNzIn v lo hi = some j) :
    lo ≤ j ∧ j ≤ hi ∧ v.getD j 0 ≠ 0 ∧ ∀ k, lo ≤ k → k < j → v.getD k 0 = 0 :=
  firstNzInF_spec_some (hi + 1 - lo + 1) v hi lo j (by omega) h

theorem firstNzIn_none (v : List Nat) (lo hi : Nat) (h : firstNzIn v lo hi = none) :
    ∀ k, lo ≤ k → k ≤ hi → v.getD k 0 = 0 :=
  firstNzInF_spec_none (hi + 1 - lo + 1) v hi lo (by omega) h

/-- The general sentinel behaviour of `erase_bit_and_update`: the bit is
cleared (and nothing else changes in the blocks); a nonzero block keeps
the window; when the cleared block becomes zero and carries the low
sentinel, the low sentinel advances to the next nonzero block of the
window (or the window empties when none remains, in which case every
block is zero); symmetrically for the high sentinel; otherwise the
window is untouched. -/
theorem eraseBitAndUpdate_general (st : BBSentinel) (nBit : Nat)
    (hU : blocksU64 st.vBB) (hInv : windowInv st)
    (h0 : 0 ≤ st.bbl) (hlh : st.bbl ≤ st.bbh) (hhn : st.bbh < (st.vBB.length : Int))
    (hb : nBit < 64 * st.vBB.length) :
    (eraseBitAndUpdate st nBit).vBB = clearBitBlock st.vBB (nBit / 64) (nBit % 64) ∧
    (∀ x, hasBitD (eraseBitAndUpdate st nBit).vBB x =
      (hasBitD st.vBB x && !(decide (x = nBit)))) ∧
    ((clearBitBlock st.vBB (nBit / 64) (nBit % 64)).getD (nBit / 64) 0 ≠ 0 →
      (eraseBitAndUpdate st nBit).bbl = st.bbl ∧ (eraseBitAndUpdate st nBit).bbh = st.bbh) ∧
    ((clearBitBlock st.vBB (nBit / 64) (nBit % 64)).getD (nBit / 64) 0 = 0 →
      st.bbl = ((nBit / 64 : Nat) : Int) →
      (∀ j, nBit / 64 < j → (j : Int) ≤ st.bbh →
        (∀ k, nBit / 64 < k → k < j →
          (clearBitBlock st.vBB (nBit / 64) (nBit % 64)).getD k 0 = 0) →
        (clearBitBlock st.vBB (nBit / 64) (nBit % 64)).getD j 0 ≠ 0 →
        (eraseBitAndUpdate st nBit).bbl = (j : Int) ∧
        (eraseBitAndUpdate st nBit).bbh = st.bbh) ∧
      ((∀ j, nBit / 64 < j → (j : Int) ≤ st.bbh →
          (clearBitBlock st.vBB (nBit / 64) (nBit % 64)).getD j 0 = 0) →
        (eraseBitAndUpdate st nBit).bbl = -1 ∧ (eraseBitAndUpdate st nBit).bbh = -1 ∧
        ∀ k, k < st.vBB.length →
          (clearBitBlock st.vBB (nBit / 64) (nBit % 64)).getD k 0 = 0)) ∧
    ((clearBitBlock st.vBB (nBit / 64) (nBit % 64)).getD (nBit / 64) 0 = 0 →
      ¬st.bbl = ((nBit / 64 : Nat) : Int) → st.bbh = ((nBit / 64 : Nat) : Int) →
      (∀ j : Nat, st.bbl ≤ (j : Int) → j < nBit / 64 →
        (∀ k : Nat, j < k → k < nBit / 64 →
          (clearBitBlock st.vBB (nBit / 64) (nBit % 64)).getD k 0 = 0) →
        (clearBitBlock st.vBB (nBit / 64) (nBit % 64)).getD j 0 ≠ 0 →
        (eraseBitAndUpdate st nBit).bbh = (j : Int) ∧
        (eraseBitAndUpdate st nBit).bbl = st.bbl) ∧
      ((∀ j : Nat, st.bbl ≤ (j : Int) → j < nBit / 64 →
          (clearBitBlock st.vBB (nBit / 64) (nBit % 64)).getD j 0 = 0) →
        (eraseBitAndUpdate st nBit).bbl = -1 ∧ (eraseBitAndUpdate st nBit).bbh = -1 ∧
        ∀ k, k < st.vBB.length →
          (clearBitBlock st.vBB (nBit / 64) (nBit % 64)).getD k 0 = 0)) ∧
    ((clearBitBlock st.vBB (nBit / 64) (nBit % 64)).getD (nBit / 64) 0 = 0 →
      ¬st.bbl = ((nBit / 64 : Nat) : Int) → ¬st.bbh = ((nBit / 64 : Nat) : Int) →
      (eraseBitAndUpdate st nBit).bbl = st.bbl ∧ (eraseBitAndUpdate st nBit).bbh = st.bbh) := by
  have hcond : ¬(st.bbl = -1 ∨ st.bbh = -1) := by omega
  have hblk : nBit / 64 < st.vBB.length := by omega
  have hvBB := eraseBitAndUpdate_vBB st nBit hcond
  have hstep := eraseBitAndUpdate_eq st nBit hcond
  refine ⟨hvBB, ?_, ?_, ?_, ?_, ?_⟩
  · intro x
    rw [hvBB]
    exact hasBitD_clearBitBlock st.vBB hU nBit hblk x
  · intro hz
    rw [hstep, if_neg hz]
    exact ⟨rfl, rfl⟩
  · intro hz hL
    rw [hstep, if_pos hz, if_pos hL,
        updateSentinelsLow_eq _ (by show ¬st.bbl = -1; omega)
          (by show (clearBitBlock st.vBB (nBit / 64) (nBit % 64)).getD st.bbl.toNat 0 = 0
              have : st.bbl.toNat = nBit / 64 := by omega
              rw [this]; exact hz)]
    have htn : st.bbl.toNat = nBit / 64 := by omega
    constructor
    · intro j hj1 hj2 hmin hnz
      cases hF : firstNzIn (clearBitBlock st.vBB (nBit / 64) (nBit % 64))
          (st.bbl.toNat + 1) st.bbh.toNat with
      | none =>
        exfalso
        have hall := firstNzIn_none _ _ _ hF
        exact hnz (hall j (by omega) (by omega))
      | some j' =>
        obtain ⟨ha, hb', hc, hd⟩ := firstNzIn_some _ _ _ _ hF
        have hjj : j' = j := by
          rcases Nat.lt_trichotomy j j' with hlt | heq | hgt
          · exact absurd (hd j (by omega) hlt) hnz
          · omega
          · exact absurd (hmin j' (by omega) hgt) hc
        subst hjj
        exact ⟨rfl, rfl⟩
    · intro hall
      cases hF : firstNzIn (clearBitBlock st.vBB (nBit / 64) (nBit % 64))
          (st.bbl.toNat + 1) st.bbh.toNat with
      | some j' =>
        exfalso
        obtain ⟨ha, hb', hc, _⟩ := firstNzIn_some _ _ _ _ hF
        exact hc (hall j' (by omega) (by omega))
      | none =>
        refine ⟨rfl, rfl, ?_⟩
        intro k hk
        by_cases hk1 : k = nBit / 64
        · rw [hk1]; exact hz
        · by_cases hk2 : k < nBit / 64
          · rw [getD_clearBitBlock_ne _ _ _ _ hk1]
            exact hInv k hk (Or.inl (by omega))
          · by_cases hk3 : (k : Int) ≤ st.bbh
            · exact firstNzIn_none _ _ _ hF k (by omega) (by omega)
            · rw [getD_clearBitBlock_ne _ _ _ _ hk1]
              exact hInv k hk (Or.inr (by omega))
  · intro hz hL hH
    have hbb0 : ¬((nBit / 64 : Nat) = 0) := by omega
    rw [hstep, if_pos hz, if_neg hL, if_pos hH,
        updateSentinelsHigh_eq _ (by show ¬st.bbh = -1; omega)
          (by show (clearBitBlock st.vBB (nBit / 64) (nBit % 64)).getD st.bbh.toNat 0 = 0
              have : st.bbh.toNat = nBit / 64 := by omega
              rw [this]; exact hz)]
    have htn : st.bbh.toNat = nBit / 64 := by omega
    rw [show (⟨st.nBB, clearBitBlock st.vBB (nBit / 64) (nBit % 64), st.bbl,
          st.bbh⟩ : BBSentinel).bbh.toNat = nBit / 64 from htn]
    rw [if_neg hbb0]
    constructor
    · intro j hj1 hj2 hmin hnz
      cases hF : lastNzIn (clearBitBlock st.vBB (nBit / 64) (nBit % 64))
          st.bbl.toNat (nBit / 64 - 1) with
      | none =>
        exfalso
        have hall := lastNzIn_spec_none _ _ _ hF
        exact hnz (hall j (by omega) (by omega))
      | some j' =>
        obtain ⟨ha, hb', hc, hd⟩ := lastNzIn_spec_some _ _ _ _ hF
        have hjj : j' = j := by
          rcases Nat.lt_trichotomy j j' with hlt | heq | hgt
          · exact absurd (hmin j' hlt (by omega)) hc
          · omega
          · exact absurd (hd j hgt (by omega)) hnz
        subst hjj
        exact ⟨rfl, rfl⟩
    · intro hall
      cases hF : lastNzIn (clearBitBlock st.vBB (nBit / 64) (nBit % 64))
          st.bbl.toNat (nBit / 64 - 1) with
      | some j' =>
        exfalso
        obtain ⟨ha, hb', hc, _⟩ := lastNzIn_spec_some _ _ _ _ hF
        exact hc (hall j' (by omega) (by omega))
      | none =>
        refine ⟨rfl, rfl, ?_⟩
        intro k hk
        by_cases hk1 : k = nBit / 64
        · rw [hk1]; exact hz
        · by_cases hk2 : (k : Int) < st.bbl
          · rw [getD_clearBitBlock_ne _ _ _ _ hk1]
            exact hInv k hk (Or.inl hk2)
          · by_cases hk3 : k < nBit / 64
            · exact lastNzIn_spec_none _ _ _ hF k (by omega) (by omega)
            · rw [getD_clearBitBlock_ne _ _ _ _ hk1]
              exact hInv k hk (Or.inr (by omega))
  · intro hz hL hH
    rw [hstep, if_pos hz, if_neg hL, if_neg hH]
    exact ⟨rfl, rfl⟩

/-- Claim C4: for a sentinel bitset with a non-empty well-formed window
satisfying the window invariant, `erase_bit_and_update(b)` clears
exactly bit `b`; if `b`'s block becomes zero and equals the low
sentinel, the low sentinel advances to the next non-zero block
(symmetrically the high sentinel retreats when `b`'s block equals it),
and when no non-zero block remains both sentinels become `noBit` (and
every block is zero); on the spec's example (bits 128 and 192, window
`(2, 3)`), erasing 128 advances low to 3 and erasing 192 then resets
the window to `(noBit, noBit)` with `is_empty()` true. -/
theorem eraseBitAndUpdate_window_spec (st : BBSentinel) (nBit : Nat)
    (hU : blocksU64 st.vBB) (hInv : windowInv st)
    (h0 : 0 ≤ st.bbl) (hlh : st.bbl ≤ st.bbh) (hhn : st.bbh < (st.vBB.length : Int))
    (hb : nBit < 64 * st.vBB.length) :
    ((eraseBitAndUpdate st nBit).vBB = clearBitBlock st.vBB (nBit / 64) (nBit % 64) ∧
    (∀ x, hasBitD (eraseBitAndUpdate st nBit).vBB x =
      (hasBitD st.vBB x && !(decide (x = nBit)))) ∧
    ((clearBitBlock st.vBB (nBit / 64) (nBit % 64)).getD (nBit / 64) 0 ≠ 0 →
      (eraseBitAndUpdate st nBit).bbl = st.bbl ∧ (eraseBitAndUpdate st nBit).bbh = st.bbh) ∧
    ((clearBitBlock st.vBB (nBit / 64) (nBit % 64)).getD (nBit / 64) 0 = 0 →
      st.bbl = ((nBit / 64 : Nat) : Int) →
      (∀ j, nBit / 64 < j → (j : Int) ≤ st.bbh →
        (∀ k, nBit / 64 < k → k < j →
          (clearBitBlock st.vBB (nBit / 64) (nBit % 64)).getD k 0 = 0) →
        (clearBitBlock st.vBB (nBit / 64) (nBit % 64)).getD j 0 ≠ 0 →
        (eraseBitAndUpdate st nBit).bbl = (j : Int) ∧
        (eraseBitAndUpdate st nBit).bbh = st.bbh) ∧
      ((∀ j, nBit / 64 < j → (j : Int) ≤ st.bbh →
          (clearBitBlock st.vBB (nBit / 64) (nBit % 64)).getD j 0 = 0) →
        (eraseBitAndUpdate st nBit).bbl = -1 ∧ (eraseBitAndUpdate st nBit).bbh = -1 ∧
        ∀ k, k < st.vBB.length →
          (clearBitBlock st.vBB (nBit / 64) (nBit % 64)).getD k 0 = 0)) ∧
    ((clearBitBlock st.vBB (nBit / 64) (nBit % 64)).getD (nBit / 64) 0 = 0 →
      ¬st.bbl = ((nBit / 64 : Nat) : Int) → st.bbh = ((nBit / 64 : Nat) : Int) →
      (∀ j : Nat, st.bbl ≤ (j : Int) → j < nBit / 64 →
        (∀ k : Nat, j < k → k < nBit / 64 →
          (clearBitBlock st.vBB (nBit / 64) (nBit % 64)).getD k 0 = 0) →
        (clearBitBlock st.vBB (nBit / 64) (nBit % 64)).getD j 0 ≠ 0 →
        (eraseBitAndUpdate st nBit).bbh = (j : Int) ∧
        (eraseBitAndUpdate st nBit).bbl = st.bbl) ∧
      ((∀ j : Nat, st.bbl ≤ (j : Int) → j < nBit / 64 →
          (clearBitBlock st.vBB (nBit / 64) (nBit % 64)).getD j 0 = 0) →
        (eraseBitAndUpdate st nBit).bbl = -1 ∧ (eraseBitAndUpdate st nBit).bbh = -1 ∧
        ∀ k, k < st.vBB.length →
          (clearBitBlock st.vBB (nBit / 64) (nBit % 64)).getD k 0 = 0)) ∧
    ((clearBitBlock st.vBB (nBit / 64) (nBit % 64)).getD (nBit / 64) 0 = 0 →
      ¬st.bbl = ((nBit / 64 : Nat) : Int) → ¬st.bbh = ((nBit / 64 : Nat) : Int) →
      (eraseBitAndUpdate st nBit).bbl = st.bbl ∧ (eraseBitAndUpdate st nBit).bbh = st.bbh)) ∧
    ((eraseBitAndUpdate ⟨10, [0, 0, 1, 1, 0, 0, 0, 0, 0, 0], 2, 3⟩ 128).bbl = 3 ∧
     (eraseBitAndUpdate ⟨10, [0, 0, 1, 1, 0, 0, 0, 0, 0, 0], 2, 3⟩ 128).bbh = 3 ∧
     hasBitD (eraseBitAndUpdate ⟨10, [0, 0, 1, 1, 0, 0, 0, 0, 0, 0], 2, 3⟩ 128).vBB 128 = false ∧
     hasBitD (eraseBitAndUpdate ⟨10, [0, 0, 1, 1, 0, 0, 0, 0, 0, 0], 2, 3⟩ 128).vBB 192 = true ∧
     (eraseBitAndUpdate (eraseBitAndUpdate ⟨10, [0, 0, 1, 1, 0, 0, 0, 0, 0, 0], 2, 3⟩ 128) 192).bbl = -1 ∧
     (eraseBitAndUpdate (eraseBitAndUpdate ⟨10, [0, 0, 1, 1, 0, 0, 0, 0, 0, 0], 2, 3⟩ 128) 192).bbh = -1 ∧
     isEmptySen (eraseBitAndUpdate (eraseBitAndUpdate ⟨10, [0, 0, 1, 1, 0, 0, 0, 0, 0, 0], 2, 3⟩ 128) 192) = true) :=
  ⟨eraseBitAndUpdate_general st nBit hU hInv h0 hlh hhn hb, by decide⟩

/-- Witness for C4 on the spec's sentinel example (erasing bit 128). -/
theorem eraseBitAndUpdate_window_spec_witness :
    (eraseBitAndUpdate ⟨10, [0, 0, 1, 1, 0, 0, 0, 0, 0, 0], 2, 3⟩ 128).vBB =
      clearBitBlock [0, 0, 1, 1, 0, 0, 0, 0, 0, 0] (128 / 64) (128 % 64) :=
  (eraseBitAndUpdate_window_spec ⟨10, [0, 0, 1, 1, 0, 0, 0, 0, 0, 0], 2, 3⟩ 128
    (by decide) (by decide) (by decide) (by decide) (by decide) (by decide)).1.1
/-! ### Dense scan enumeration (claims C5 and C6)

Specification lemmas for `lsbPos`/`msbPos` as least/greatest set bit,
the mask tables as bit-range selectors, the block loops
`scanFwdFromD`/`scanBwdFromD`, and the scan steps `next_bit`,
`prev_bit` and `next_bit_del` as minimum/maximum searches relative to
the virtual cursor, culminating in the full enumeration theorems. -/

theorem testBit_lsbPos : ∀ w : Nat, w ≠ 0 → w.testBit (lsbPos w) = true := by
  intro w
  induction w using Nat.strong_induction_on with
  | _ w ih =>
    intro hw
    rcases Nat.even_or_odd w with he | ho
    · have h2 : w % 2 = 0 := Nat.even_iff.mp he
      have hw2 : w / 2 ≠ 0 := by omega
      have hlt : w / 2 < w := Nat.div_lt_self (Nat.pos_of_ne_zero hw) (by omega)
      rw [lsbPos_of_even hw h2, Nat.testBit_succ]
      exact ih _ hlt hw2
    · have h2 : w % 2 = 1 := Nat.odd_iff.mp ho
      rw [lsbPos_of_odd h2, Nat.testBit_zero]
      simp [h2]

theorem lsbPos_min : ∀ w j : Nat, j < lsbPos w → w.testBit j = false := by
  intro w
  induction w using Nat.strong_induction_on with
  | _ w ih =>
    intro j hj
    by_cases hw : w = 0
    · subst hw; exact Nat.zero_testBit j
    rcases Nat.even_or_odd w with he | ho
    · have h2 : w % 2 = 0 := Nat.even_iff.mp he
      rw [lsbPos_of_even hw h2] at hj
      cases j with
      | zero => rw [Nat.testBit_zero]; simp [h2]
      | succ i =>
        rw [Nat.testBit_succ]
        exact ih _ (Nat.div_lt_self (Nat.pos_of_ne_zero hw) (by omega)) i (by omega)
    · have h2 : w % 2 = 1 := Nat.odd_iff.mp ho
      rw [lsbPos_of_odd h2] at hj
      omega

theorem msbPos_max {w : Nat} (hw : w ≠ 0) (j : Nat) (hj : msbPos w < j) :
    w.testBit j = false := by
  have h := (msbPos_spec w hw).2
  exact Nat.testBit_lt_two_pow
    (lt_of_lt_of_le h (Nat.pow_le_pow_right (by norm_num) (by omega)))

theorem maskHigh_eq (p : Nat) (hp : p ≤ 63) :
    maskHigh p = (2 ^ (63 - p) - 1) <<< (p + 1) := by
  rw [maskHigh, if_neg (by omega), Nat.shiftLeft_eq, Nat.sub_mul, one_mul, ← pow_add]
  have h : 63 - p + (p + 1) = 64 := by omega
  rw [h]

theorem testBit_and_maskHigh {w : Nat} (p t : Nat) (hw : w < 2 ^ 64) (hp : p ≤ 63) :
    (w &&& maskHigh p).testBit t = (w.testBit t && decide (p < t)) := by
  rw [Nat.testBit_and, maskHigh_eq p hp, Nat.testBit_shiftLeft, Nat.testBit_two_pow_sub_one]
  by_cases ht : t < 64
  · by_cases hpt : p < t
    · have h1 : t ≥ p + 1 := by omega
      have h2 : t - (p + 1) < 63 - p := by omega
      simp [h1, h2, hpt]
    · have h1 : ¬ t ≥ p + 1 := by omega
      simp [h1, hpt]
  · have hz : w.testBit t = false :=
      Nat.testBit_lt_two_pow (lt_of_lt_of_le hw (Nat.pow_le_pow_right (by norm_num) (by omega)))
    have h2 : ¬ t - (p + 1) < 63 - p := by omega
    simp [hz, h2]

theorem and_maskHigh_65 {w : Nat} (hw : w < 2 ^ 64) : w &&& maskHigh 65 = w := by
  apply Nat.eq_of_testBit_eq
  intro t
  rw [Nat.testBit_and, maskHigh, if_pos rfl, Nat.testBit_two_pow_sub_one]
  by_cases ht : t < 64
  · simp [ht]
  · have hz : w.testBit t = false :=
      Nat.testBit_lt_two_pow (lt_of_lt_of_le hw (Nat.pow_le_pow_right (by norm_num) (by omega)))
    simp [hz]

theorem testBit_and_maskLow (w p t : Nat) :
    (w &&& maskLow p).testBit t = (w.testBit t && decide (t < p)) := by
  rw [Nat.testBit_and, maskLow, Nat.testBit_two_pow_sub_one]

theorem scanFwdFromDF_spec : ∀ (fuel : Nat) (v : List Nat) (n i : Nat), n + 1 - i ≤ fuel →
    ((∀ j p, scanFwdFromDF v n fuel i = some (j, p) →
        i ≤ j ∧ j < n ∧ v.getD j 0 ≠ 0 ∧ p = lsbPos (v.getD j 0) ∧
        ∀ k, i ≤ k → k < j → v.getD k 0 = 0) ∧
     (scanFwdFromDF v n fuel i = none → ∀ k, i ≤ k → k < n → v.getD k 0 = 0)) := by
  intro fuel
  induction fuel with
  | zero =>
    intro v n i hf
    constructor
    · intro j p h; simp [scanFwdFromDF] at h
    · intro _ k hk1 hk2; omega
  | succ f ih =>
    intro v n i hf
    by_cases hin : i < n
    · by_cases hz : v.getD i 0 = 0
      · have heq : scanFwdFromDF v n (f + 1) i = scanFwdFromDF v n f (i + 1) := by
          rw [scanFwdFromDF, if_pos hin, if_pos hz]
        have hih := ih v n (i + 1) (by omega)
        constructor
        · intro j p h
          rw [heq] at h
          obtain ⟨h1, h2, h3, h4, h5⟩ := hih.1 j p h
          refine ⟨by omega, h2, h3, h4, ?_⟩
          intro k hk1 hk2
          rcases Nat.eq_or_lt_of_le hk1 with he | hlt
          · exact he ▸ hz
          · exact h5 k (by omega) hk2
        · intro h k hk1 hk2
          rw [heq] at h
          rcases Nat.eq_or_lt_of_le hk1 with he | hlt
          · exact he ▸ hz
          · exact hih.2 h k (by omega) hk2
      · have heq : scanFwdFromDF v n (f + 1) i = some (i, lsbPos (v.getD i 0)) := by
          rw [scanFwdFromDF, if_pos hin, if_neg hz]
        constructor
        · intro j p h
          rw [heq, Option.some.injEq, Prod.mk.injEq] at h
          obtain ⟨hj, hp⟩ := h
          subst hj; subst hp
          exact ⟨le_refl i, hin, hz, rfl, fun k hk1 hk2 => by omega⟩
        · intro h; rw [heq] at h; exact absurd h (by simp)
    · have heq : scanFwdFromDF v n (f + 1) i = none := by
        rw [scanFwdFromDF, if_neg hin]
      constructor
      · intro j p h; rw [heq] at h; exact absurd h (by simp)
      · intro _ k hk1 hk2; omega

theorem scanFwdFromD_some {v : List Nat} {n i j p : Nat}
    (h : scanFwdFromD v n i = some (j, p)) :
    i ≤ j ∧ j < n ∧ v.getD j 0 ≠ 0 ∧ p = lsbPos (v.getD j 0) ∧
    ∀ k, i ≤ k → k < j → v.getD k 0 = 0 :=
  (scanFwdFromDF_spec (n + 1 - i) v n i (le_refl _)).1 j p h

theorem scanFwdFromD_none {v : List Nat} {n i : Nat}
    (h : scanFwdFromD v n i = none) :
    ∀ k, i ≤ k → k < n → v.getD k 0 = 0 :=
  (scanFwdFromDF_spec (n + 1 - i) v n i (le_refl _)).2 h

theorem scanBwdFromD_spec : ∀ (i : Nat) (v : List Nat),
    ((∀ j p, scanBwdFromD v i = some (j, p) →
        j ≤ i ∧ v.getD j 0 ≠ 0 ∧ p = msbPos (v.getD j 0) ∧
        ∀ k, j < k → k ≤ i → v.getD k 0 = 0) ∧
     (scanBwdFromD v i = none → ∀ k, k ≤ i → v.getD k 0 = 0)) := by
  intro i
  induction i with
  | zero =>
    intro v
    constructor
    · intro j p h
      rw [scanBwdFromD] at h
      by_cases hz : v.getD 0 0 = 0
      · rw [if_pos hz] at h; exact absurd h (by simp)
      · rw [if_neg hz, Option.some.injEq, Prod.mk.injEq] at h
        obtain ⟨hj, hp⟩ := h
        subst hj; subst hp
        exact ⟨le_refl 0, hz, rfl, fun k hk1 hk2 => by omega⟩
    · intro h k hk
      rw [scanBwdFromD] at h
      by_cases hz : v.getD 0 0 = 0
      · have hk0 : k = 0 := by omega
        rw [hk0]; exact hz
      · rw [if_neg hz] at h; exact absurd h (by simp)
  | succ i ih =>
    intro v
    by_cases hz : v.getD (i + 1) 0 = 0
    · have heq : scanBwdFromD v (i + 1) = scanBwdFromD v i := by
        rw [scanBwdFromD, if_pos hz]
      constructor
      · intro j p h
        rw [heq] at h
        obtain ⟨h1, h2, h3, h4⟩ := (ih v).1 j p h
        refine ⟨by omega, h2, h3, ?_⟩
        intro k hk1 hk2
        rcases Nat.eq_or_lt_of_le hk2 with he | hlt
        · rw [he]; exact hz
        · exact h4 k hk1 (by omega)
      · intro h k hk
        rw [heq] at h
        rcases Nat.eq_or_lt_of_le hk with he | hlt
        · rw [he]; exact hz
        · exact (ih v).2 h k (by omega)
    · have heq : scanBwdFromD v (i + 1) = some (i + 1, msbPos (v.getD (i + 1) 0)) := by
        rw [scanBwdFromD, if_neg hz]
      constructor
      · intro j p h
        rw [heq, Option.some.injEq, Prod.mk.injEq] at h
        obtain ⟨hj, hp⟩ := h
        subst hj; subst hp
        exact ⟨le_refl _, hz, rfl, fun k hk1 hk2 => by omega⟩
      · intro h; rw [heq] at h; exact absurd h (by simp)

theorem hasBitD_lt {v : List Nat} {b : Nat} (h : hasBitD v b = true) :
    b < 64 * v.length := by
  by_contra hge
  have hlen : v.length ≤ b / 64 := by omega
  rw [hasBitD, List.getD_eq_default _ _ hlen, Nat.zero_testBit] at h
  exact Bool.false_ne_true h

theorem mem_bitsOfD (v : List Nat) (b : Nat) : b ∈ bitsOfD v ↔ hasBitD v b = true := by
  rw [bitsOfD, List.mem_filter, List.mem_range]
  exact ⟨fun h => h.2, fun h => ⟨hasBitD_lt h, h⟩⟩

theorem bitsOfD_sorted (v : List Nat) : (bitsOfD v).Pairwise (· < ·) :=
  List.Pairwise.filter _ (List.pairwise_lt_range _)

theorem blocks_zero_of_bitsOfD_nil {v : List Nat} (hU : blocksU64 v)
    (h : bitsOfD v = []) : ∀ w ∈ v, w = 0 := by
  intro w hw
  by_contra hnz
  obtain ⟨k, hk, hkw⟩ := List.getElem_of_mem hw
  have hw64 : w < 2 ^ 64 := hU w hw
  have hl : lsbPos w < 64 := lsbPos_lt_64 hnz hw64
  have hbit : hasBitD v (64 * k + lsbPos w) = true := by
    rw [hasBitD]
    have h1 : (64 * k + lsbPos w) / 64 = k := by omega
    have h2 : (64 * k + lsbPos w) % 64 = lsbPos w := by omega
    rw [h1, h2, List.getD_eq_getElem _ _ hk, hkw]
    exact testBit_lsbPos w hnz
  have hmem := (mem_bitsOfD v _).mpr hbit
  rw [h] at hmem
  exact absurd hmem (List.not_mem_nil _)

theorem filter_gt_head : ∀ L : List Nat, L.Pairwise (· < ·) →
    ∀ (c : Int) (b : Nat) (t : List Nat),
    L.filter (fun x : Nat => decide (c < (x : Int))) = b :: t →
    L.filter (fun x : Nat => decide ((b : Int) < (x : Int))) = t := by
  intro L
  induction L with
  | nil => intro _ c b t h; exact absurd h (by simp)
  | cons a L ih =>
    intro hs c b t h
    obtain ⟨hall, hsL⟩ := List.pairwise_cons.mp hs
    by_cases pa : c < (a : Int)
    · rw [List.filter_cons_of_pos (by simpa using pa)] at h
      injection h with hab ht
      subst hab
      rw [List.filter_cons_of_neg (by simp)]
      rw [← ht]
      apply List.filter_congr
      intro x hx
      have hax : (a : Int) < (x : Int) := by exact_mod_cast hall x hx
      have hcx : c < (x : Int) := lt_trans pa hax
      simp [hax, hcx]
    · rw [List.filter_cons_of_neg (by simpa using pa)] at h
      have hbL : b ∈ L := by
        have hm : b ∈ L.filter (fun x : Nat => decide (c < (x : Int))) := by
          rw [h]; exact List.mem_cons_self _ _
        exact (List.mem_filter.mp hm).1
      have hab : a < b := hall b hbL
      have hna : ¬ ((b : Int) < (a : Int)) := by
        rw [not_lt]; exact_mod_cast le_of_lt hab
      rw [List.filter_cons_of_neg (by simpa using hna)]
      exact ih hsL c b t h

theorem filter_lt_init : ∀ L : List Nat, L.Pairwise (· < ·) →
    ∀ (c : Int) (M : List Nat) (b : Nat),
    L.filter (fun x : Nat => decide ((x : Int) < c)) = M ++ [b] →
    L.filter (fun x : Nat => decide ((x : Int) < (b : Int))) = M := by
  intro L
  induction L with
  | nil => intro _ c M b h; exact absurd h (by simp)
  | cons a L ih =>
    intro hs c M b h
    obtain ⟨hall, hsL⟩ := List.pairwise_cons.mp hs
    by_cases pa : (a : Int) < c
    · rw [List.filter_cons_of_pos (by simpa using pa)] at h
      cases M with
      | nil =>
        injection h with hab hnil
        subst hab
        rw [List.filter_cons_of_neg (by simp)]
        rw [List.filter_eq_nil_iff]
        intro x hx
        have hax : a < x := hall x hx
        simp only [decide_eq_true_eq, not_lt]
        exact_mod_cast le_of_lt hax
      | cons m M' =>
        injection h with ham ht
        subst ham
        have ht' := ih hsL c M' b ht
        have hbL : b ∈ L := by
          have hm : b ∈ L.filter (fun x : Nat => decide ((x : Int) < c)) := by
            rw [ht]; exact List.mem_append_right _ (by simp)
          exact (List.mem_filter.mp hm).1
        have hab : (a : Int) < (b : Int) := by exact_mod_cast hall b hbL
        rw [List.filter_cons_of_pos (by simpa using hab), ht']
    · rw [List.filter_cons_of_neg (by simpa using pa)] at h
      have hbc : (b : Int) < c := by
        have hm : b ∈ L.filter (fun x : Nat => decide ((x : Int) < c)) := by
          rw [h]; exact List.mem_append_right _ (by simp)
        simpa using (List.mem_filter.mp hm).2
      have hna : ¬ ((a : Int) < (b : Int)) := fun hh => pa (lt_trans hh hbc)
      rw [List.filter_cons_of_neg (by simpa using hna)]
      exact ih hsL c M b h

theorem nextBit_cases (n : Nat) (v : List Nat) (bbi : Int) (pos : Nat)
    (hlen : v.length = n) (hU : blocksU64 v)
    (hcur : (pos ≤ 63 ∧ 0 ≤ bbi) ∨ (bbi = 0 ∧ pos = 65)) :
    (∃ b : Nat, nextBit ⟨n, v, bbi, pos⟩ = ((b : Int), ⟨n, v, ((b / 64 : Nat) : Int), b % 64⟩) ∧
       hasBitD v b = true ∧ cvalF ⟨n, v, bbi, pos⟩ < (b : Int) ∧
       ∀ x : Nat, hasBitD v x = true → cvalF ⟨n, v, bbi, pos⟩ < (x : Int) → b ≤ x) ∨
    (nextBit ⟨n, v, bbi, pos⟩ = (-1, ⟨n, v, bbi, pos⟩) ∧
       ∀ x : Nat, hasBitD v x = true → ¬ cvalF ⟨n, v, bbi, pos⟩ < (x : Int)) := by
  have hb0 : 0 ≤ bbi := by
    rcases hcur with ⟨_, h⟩ | ⟨h, _⟩
    · exact h
    · omega
  have hbN : ((bbi.toNat : Nat) : Int) = bbi := Int.toNat_of_nonneg hb0
  have hg64 : v.getD bbi.toNat 0 < 2 ^ 64 := by
    by_cases hN : bbi.toNat < v.length
    · exact getD_mem_lt hU hN
    · rw [List.getD_eq_default _ _ (by omega)]; norm_num
  have hcv : ∀ t : Nat, (v.getD bbi.toNat 0 &&& maskHigh pos).testBit t = true ↔
      ((v.getD bbi.toNat 0).testBit t = true ∧
        cvalF ⟨n, v, bbi, pos⟩ < 64 * bbi + (t : Int)) := by
    intro t
    rcases hcur with ⟨hp, _⟩ | ⟨hb, hp⟩
    · rw [testBit_and_maskHigh pos t hg64 hp]
      simp only [cvalF]
      rw [if_neg (by omega : ¬ pos = 65)]
      simp only [Bool.and_eq_true, decide_eq_true_eq]
      constructor
      · rintro ⟨h1, h2⟩; exact ⟨h1, by omega⟩
      · rintro ⟨h1, h2⟩; exact ⟨h1, by omega⟩
    · subst hp; subst hb
      rw [and_maskHigh_65 hg64]
      simp only [cvalF]
      simp only [if_true]
      exact ⟨fun h => ⟨h, by omega⟩, fun h => h.1⟩
  have hc1 : 64 * bbi - 1 ≤ cvalF ⟨n, v, bbi, pos⟩ := by
    rcases hcur with ⟨hp, _⟩ | ⟨hb, hp⟩
    · simp only [cvalF]; rw [if_neg (by omega : ¬ pos = 65)]; omega
    · simp only [cvalF]; rw [if_pos hp]; omega
  by_cases hw : v.getD bbi.toNat 0 &&& maskHigh pos = 0
  · cases hF : scanFwdFromD v n (bbi.toNat + 1) with
    | none =>
      have hnb : nextBit ⟨n, v, bbi, pos⟩ = (-1, ⟨n, v, bbi, pos⟩) := by
        simp only [nextBit]
        rw [if_neg (not_not_intro hw), hF]
      right
      refine ⟨hnb, ?_⟩
      intro x hx hcx
      have hxr : x < 64 * v.length := hasBitD_lt hx
      rw [hasBitD] at hx
      by_cases hxb : x / 64 < bbi.toNat
      · omega
      · by_cases hxe : x / 64 = bbi.toNat
        · have hbitg : (v.getD bbi.toNat 0).testBit (x % 64) = true := by
            rw [← hxe]; exact hx
          have hwx := (hcv (x % 64)).mpr ⟨hbitg, by omega⟩
          rw [hw, Nat.zero_testBit] at hwx
          exact Bool.false_ne_true hwx
        · have hz := scanFwdFromD_none hF (x / 64) (by omega) (by omega)
          rw [hz, Nat.zero_testBit] at hx
          exact Bool.false_ne_true hx
    | some jp =>
      obtain ⟨j, p⟩ := jp
      obtain ⟨h1, h2, h3, h4, h5⟩ := scanFwdFromD_some hF
      have hnb : nextBit ⟨n, v, bbi, pos⟩ =
          ((p : Int) + 64 * (j : Int), ⟨n, v, (j : Int), p⟩) := by
        simp only [nextBit]
        rw [if_neg (not_not_intro hw), hF]
      have hj64 : v.getD j 0 < 2 ^ 64 := getD_mem_lt hU (by omega)
      have hp64 : p < 64 := by rw [h4]; exact lsbPos_lt_64 h3 hj64
      left
      refine ⟨64 * j + p, ?_, ?_, ?_, ?_⟩
      · rw [hnb]
        have e2 : (64 * j + p) / 64 = j := by omega
        have e3 : (64 * j + p) % 64 = p := by omega
        rw [e2, e3]
        have e1 : ((64 * j + p : Nat) : Int) = (p : Int) + 64 * (j : Int) := by
          push_cast; ring
        rw [e1]
      · rw [hasBitD]
        have e2 : (64 * j + p) / 64 = j := by omega
        have e3 : (64 * j + p) % 64 = p := by omega
        rw [e2, e3, h4]
        exact testBit_lsbPos _ h3
      · rcases hcur with ⟨hp63, _⟩ | ⟨hb, hp65⟩
        · simp only [cvalF]; rw [if_neg (by omega : ¬ pos = 65)]; omega
        · simp only [cvalF]; rw [if_pos hp65]; omega
      · intro x hx hcx
        have hxr : x < 64 * v.length := hasBitD_lt hx
        rw [hasBitD] at hx
        by_cases hxb : x / 64 < bbi.toNat
        · omega
        · by_cases hxe : x / 64 = bbi.toNat
          · exfalso
            have hbitg : (v.getD bbi.toNat 0).testBit (x % 64) = true := by
              rw [← hxe]; exact hx
            have hwx := (hcv (x % 64)).mpr ⟨hbitg, by omega⟩
            rw [hw, Nat.zero_testBit] at hwx
            exact Bool.false_ne_true hwx
          · by_cases hxj : x / 64 < j
            · exfalso
              have hz := h5 (x / 64) (by omega) hxj
              rw [hz, Nat.zero_testBit] at hx
              exact Bool.false_ne_true hx
            · by_cases hxej : x / 64 = j
              · have hbitj : (v.getD j 0).testBit (x % 64) = true := by
                  rw [← hxej]; exact hx
                have hple : p ≤ x % 64 := by
                  by_contra hlt
                  rw [h4] at hlt
                  have hmin := lsbPos_min (v.getD j 0) (x % 64) (by omega)
                  rw [hmin] at hbitj
                  exact Bool.false_ne_true hbitj
                omega
              · omega
  · have hw64 : v.getD bbi.toNat 0 &&& maskHigh pos < 2 ^ 64 :=
      lt_of_le_of_lt Nat.and_le_left hg64
    have hLbit : (v.getD bbi.toNat 0 &&& maskHigh pos).testBit
        (lsbPos (v.getD bbi.toNat 0 &&& maskHigh pos)) = true := testBit_lsbPos _ hw
    have hL64 : lsbPos (v.getD bbi.toNat 0 &&& maskHigh pos) < 64 := lsbPos_lt_64 hw hw64
    have hLg := (hcv _).mp hLbit
    have hnb : nextBit ⟨n, v, bbi, pos⟩ =
        ((lsbPos (v.getD bbi.toNat 0 &&& maskHigh pos) : Int) + 64 * bbi,
         ⟨n, v, bbi, lsbPos (v.getD bbi.toNat 0 &&& maskHigh pos)⟩) := by
      simp only [nextBit]
      rw [if_pos hw]
    left
    refine ⟨64 * bbi.toNat + lsbPos (v.getD bbi.toNat 0 &&& maskHigh pos), ?_, ?_, ?_, ?_⟩
    · rw [hnb]
      have e2 : (64 * bbi.toNat + lsbPos (v.getD bbi.toNat 0 &&& maskHigh pos)) / 64
          = bbi.toNat := by omega
      have e3 : (64 * bbi.toNat + lsbPos (v.getD bbi.toNat 0 &&& maskHigh pos)) % 64
          = lsbPos (v.getD bbi.toNat 0 &&& maskHigh pos) := by omega
      rw [e2, e3, hbN]
      have e1 : ((64 * bbi.toNat + lsbPos (v.getD bbi.toNat 0 &&& maskHigh pos) : Nat) : Int)
          = (lsbPos (v.getD bbi.toNat 0 &&& maskHigh pos) : Int) + 64 * bbi := by
        push_cast; omega
      rw [e1]
    · rw [hasBitD]
      have e2 : (64 * bbi.toNat + lsbPos (v.getD bbi.toNat 0 &&& maskHigh pos)) / 64
          = bbi.toNat := by omega
      have e3 : (64 * bbi.toNat + lsbPos (v.getD bbi.toNat 0 &&& maskHigh pos)) % 64
          = lsbPos (v.getD bbi.toNat 0 &&& maskHigh pos) := by omega
      rw [e2, e3]
      exact hLg.1
    · have hc2 := hLg.2
      omega
    · intro x hx hcx
      have hxr : x < 64 * v.length := hasBitD_lt hx
      rw [hasBitD] at hx
      by_cases hxb : x / 64 < bbi.toNat
      · omega
      · by_cases hxe : x / 64 = bbi.toNat
        · have hbitg : (v.getD bbi.toNat 0).testBit (x % 64) = true := by
            rw [← hxe]; exact hx
          have hwx := (hcv (x % 64)).mpr ⟨hbitg, by omega⟩
          have hple : lsbPos (v.getD bbi.toNat 0 &&& maskHigh pos) ≤ x % 64 := by
            by_contra hlt
            rw [lsbPos_min _ (x % 64) (by omega)] at hwx
            exact Bool.false_ne_true hwx
          omega
        · omega

theorem prevBit_cases (n : Nat) (v : List Nat) (bbi : Int) (pos : Nat)
    (hU : blocksU64 v) (hb0 : 0 ≤ bbi) (hp64 : pos ≤ 64) :
    (∃ b : Nat, prevBit ⟨n, v, bbi, pos⟩ = ((b : Int), ⟨n, v, ((b / 64 : Nat) : Int), b % 64⟩) ∧
       hasBitD v b = true ∧ (b : Int) < cvalB ⟨n, v, bbi, pos⟩ ∧
       ∀ x : Nat, hasBitD v x = true → (x : Int) < cvalB ⟨n, v, bbi, pos⟩ → x ≤ b) ∨
    (prevBit ⟨n, v, bbi, pos⟩ = (-1, ⟨n, v, bbi, pos⟩) ∧
       ∀ x : Nat, hasBitD v x = true → ¬ (x : Int) < cvalB ⟨n, v, bbi, pos⟩) := by
  have hbN : ((bbi.toNat : Nat) : Int) = bbi := Int.toNat_of_nonneg hb0
  have hg64 : v.getD bbi.toNat 0 < 2 ^ 64 := by
    by_cases hN : bbi.toNat < v.length
    · exact getD_mem_lt hU hN
    · rw [List.getD_eq_default _ _ (by omega)]; norm_num
  have hcv : ∀ t : Nat, (v.getD bbi.toNat 0 &&& maskLow pos).testBit t = true ↔
      ((v.getD bbi.toNat 0).testBit t = true ∧ t < pos) := by
    intro t
    rw [testBit_and_maskLow]
    simp only [Bool.and_eq_true, decide_eq_true_eq]
  by_cases hw : v.getD bbi.toNat 0 &&& maskLow pos = 0
  · by_cases hbz : bbi ≤ 0
    · have hnb : prevBit ⟨n, v, bbi, pos⟩ = (-1, ⟨n, v, bbi, pos⟩) := by
        simp only [prevBit]
        rw [if_neg (not_not_intro hw), if_pos hbz]
      right
      refine ⟨hnb, ?_⟩
      intro x hx hcx
      simp only [cvalB] at hcx
      rw [hasBitD] at hx
      have hxb : x / 64 = bbi.toNat := by omega
      have hbitg : (v.getD bbi.toNat 0).testBit (x % 64) = true := by
        rw [← hxb]; exact hx
      have hwx := (hcv (x % 64)).mpr ⟨hbitg, by omega⟩
      rw [hw, Nat.zero_testBit] at hwx
      exact Bool.false_ne_true hwx
    · cases hF : scanBwdFromD v (bbi.toNat - 1) with
      | none =>
        have hnb : prevBit ⟨n, v, bbi, pos⟩ = (-1, ⟨n, v, bbi, pos⟩) := by
          simp only [prevBit]
          rw [if_neg (not_not_intro hw), if_neg hbz, hF]
        right
        refine ⟨hnb, ?_⟩
        intro x hx hcx
        simp only [cvalB] at hcx
        rw [hasBitD] at hx
        by_cases hxb : x / 64 = bbi.toNat
        · have hbitg : (v.getD bbi.toNat 0).testBit (x % 64) = true := by
            rw [← hxb]; exact hx
          have hwx := (hcv (x % 64)).mpr ⟨hbitg, by omega⟩
          rw [hw, Nat.zero_testBit] at hwx
          exact Bool.false_ne_true hwx
        · have hxlt : x / 64 ≤ bbi.toNat - 1 := by omega
          have hz := (scanBwdFromD_spec (bbi.toNat - 1) v).2 hF (x / 64) hxlt
          rw [hz, Nat.zero_testBit] at hx
          exact Bool.false_ne_true hx
      | some jp =>
        obtain ⟨j, p⟩ := jp
        obtain ⟨h1, h2, h3, h4⟩ := (scanBwdFromD_spec (bbi.toNat - 1) v).1 _ _ hF
        have hnb : prevBit ⟨n, v, bbi, pos⟩ =
            ((p : Int) + 64 * (j : Int), ⟨n, v, (j : Int), p⟩) := by
          simp only [prevBit]
          rw [if_neg (not_not_intro hw), if_neg hbz, hF]
        have hjlen : j < v.length := by
          by_contra hc
          rw [List.getD_eq_default _ _ (by omega)] at h2
          exact h2 rfl
        have hj64 : v.getD j 0 < 2 ^ 64 := getD_mem_lt hU hjlen
        have hp63 : p < 64 := by rw [h3]; exact msbPos_lt_64 h2 hj64
        left
        refine ⟨64 * j + p, ?_, ?_, ?_, ?_⟩
        · rw [hnb]
          have e2 : (64 * j + p) / 64 = j := by omega
          have e3 : (64 * j + p) % 64 = p := by omega
          rw [e2, e3]
          have e1 : ((64 * j + p : Nat) : Int) = (p : Int) + 64 * (j : Int) := by
            push_cast; ring
          rw [e1]
        · rw [hasBitD]
          have e2 : (64 * j + p) / 64 = j := by omega
          have e3 : (64 * j + p) % 64 = p := by omega
          rw [e2, e3, h3]
          exact testBit_msbPos h2
        · simp only [cvalB]; omega
        · intro x hx hcx
          simp only [cvalB] at hcx
          rw [hasBitD] at hx
          by_cases hxb : x / 64 = bbi.toNat
          · exfalso
            have hbitg : (v.getD bbi.toNat 0).testBit (x % 64) = true := by
              rw [← hxb]; exact hx
            have hwx := (hcv (x % 64)).mpr ⟨hbitg, by omega⟩
            rw [hw, Nat.zero_testBit] at hwx
            exact Bool.false_ne_true hwx
          · by_cases hxj : x / 64 = j
            · have hbitj : (v.getD j 0).testBit (x % 64) = true := by
                rw [← hxj]; exact hx
              have hple : x % 64 ≤ p := by
                by_contra hlt
                rw [h3] at hlt
                rw [msbPos_max h2 (x % 64) (by omega)] at hbitj
                exact Bool.false_ne_true hbitj
              omega
            · by_cases hxgt : j < x / 64
              · exfalso
                have hz := h4 (x / 64) hxgt (by omega)
                rw [hz, Nat.zero_testBit] at hx
                exact Bool.false_ne_true hx
              · omega
  · have hw64 : v.getD bbi.toNat 0 &&& maskLow pos < 2 ^ 64 :=
      lt_of_le_of_lt Nat.and_le_left hg64
    have hMbit : (v.getD bbi.toNat 0 &&& maskLow pos).testBit
        (msbPos (v.getD bbi.toNat 0 &&& maskLow pos)) = true := testBit_msbPos hw
    have hM64 : msbPos (v.getD bbi.toNat 0 &&& maskLow pos) < 64 := msbPos_lt_64 hw hw64
    have hMg := (hcv _).mp hMbit
    have hnb : prevBit ⟨n, v, bbi, pos⟩ =
        ((msbPos (v.getD bbi.toNat 0 &&& maskLow pos) : Int) + 64 * bbi,
         ⟨n, v, bbi, msbPos (v.getD bbi.toNat 0 &&& maskLow pos)⟩) := by
      simp only [prevBit]
      rw [if_pos hw]
    left
    refine ⟨64 * bbi.toNat + msbPos (v.getD bbi.toNat 0 &&& maskLow pos), ?_, ?_, ?_, ?_⟩
    · rw [hnb]
      have e2 : (64 * bbi.toNat + msbPos (v.getD bbi.toNat 0 &&& maskLow pos)) / 64
          = bbi.toNat := by omega
      have e3 : (64 * bbi.toNat + msbPos (v.getD bbi.toNat 0 &&& maskLow pos)) % 64
          = msbPos (v.getD bbi.toNat 0 &&& maskLow pos) := by omega
      rw [e2, e3, hbN]
      have e1 : ((64 * bbi.toNat + msbPos (v.getD bbi.toNat 0 &&& maskLow pos) : Nat) : Int)
          = (msbPos (v.getD bbi.toNat 0 &&& maskLow pos) : Int) + 64 * bbi := by
        push_cast; omega
      rw [e1]
    · rw [hasBitD]
      have e2 : (64 * bbi.toNat + msbPos (v.getD bbi.toNat 0 &&& maskLow pos)) / 64
          = bbi.toNat := by omega
      have e3 : (64 * bbi.toNat + msbPos (v.getD bbi.toNat 0 &&& maskLow pos)) % 64
          = msbPos (v.getD bbi.toNat 0 &&& maskLow pos) := by omega
      rw [e2, e3]
      exact hMg.1
    · have hc2 := hMg.2
      simp only [cvalB]
      omega
    · intro x hx hcx
      simp only [cvalB] at hcx
      rw [hasBitD] at hx
      by_cases hxb : x / 64 = bbi.toNat
      · have hbitg : (v.getD bbi.toNat 0).testBit (x % 64) = true := by
          rw [← hxb]; exact hx
        have hwx := (hcv (x % 64)).mpr ⟨hbitg, by omega⟩
        have hple : x % 64 ≤ msbPos (v.getD bbi.toNat 0 &&& maskLow pos) := by
          by_contra hlt
          rw [msbPos_max hw (x % 64) (by omega)] at hwx
          exact Bool.false_ne_true hwx
        omega
      · omega

theorem blocksU64_clearBitBlock {v : List Nat} (hU : blocksU64 v) (i p : Nat) :
    blocksU64 (clearBitBlock v i p) := by
  intro w hw
  rw [clearBitBlock] at hw
  rcases List.mem_or_eq_of_mem_set hw with hm | he
  · exact hU w hm
  · have hg : v.getD i 0 < 2 ^ 64 := by
      by_cases hN : i < v.length
      · exact getD_mem_lt hU hN
      · rw [List.getD_eq_default _ _ (by omega)]; norm_num
    rw [he]
    exact lt_of_le_of_lt Nat.and_le_left hg

theorem bitsOfD_clear_head {v : List Nat} (hU : blocksU64 v) {b : Nat} {t : List Nat}
    (hlt : b / 64 < v.length) (ht : bitsOfD v = b :: t) :
    bitsOfD (clearBitBlock v (b / 64) (b % 64)) = t := by
  have hlen : (clearBitBlock v (b / 64) (b % 64)).length = v.length :=
    length_clearBitBlock v _ _
  have hhb := hasBitD_clearBitBlock v hU b hlt
  rw [bitsOfD, hlen]
  have hcg : (List.range (64 * v.length)).filter
        (fun x => hasBitD (clearBitBlock v (b / 64) (b % 64)) x)
      = (List.range (64 * v.length)).filter
        (fun x => (!(decide (x = b))) && hasBitD v x) := by
    apply List.filter_congr
    intro x _
    rw [hhb x]
    exact Bool.and_comm _ _
  rw [hcg, ← List.filter_filter]
  have hbd : (List.range (64 * v.length)).filter (fun x => hasBitD v x) = bitsOfD v := rfl
  rw [hbd, ht, List.filter_cons_of_neg (by simp)]
  apply List.filter_eq_self.mpr
  intro x hxt
  have hsort := bitsOfD_sorted v
  rw [ht] at hsort
  have hbx := (List.pairwise_cons.mp hsort).1 x hxt
  simp
  omega

theorem nextBitDel_cases (n : Nat) (v : List Nat) (bbi : Int) (pos : Nat)
    (hlen : v.length = n) (hU : blocksU64 v) (hb0 : 0 ≤ bbi)
    (hlow : ∀ x : Nat, hasBitD v x = true → 64 * bbi ≤ (x : Int)) :
    (∃ b t, bitsOfD v = b :: t ∧
       nextBitDel ⟨n, v, bbi, pos⟩ =
         ((b : Int), ⟨n, clearBitBlock v (b / 64) (b % 64), ((b / 64 : Nat) : Int), pos⟩) ∧
       b / 64 < v.length) ∨
    (bitsOfD v = [] ∧ nextBitDel ⟨n, v, bbi, pos⟩ = (-1, ⟨n, v, bbi, pos⟩)) := by
  have hbN : ((bbi.toNat : Nat) : Int) = bbi := Int.toNat_of_nonneg hb0
  cases hF : scanFwdFromD v n bbi.toNat with
  | none =>
    right
    have hz := scanFwdFromD_none hF
    have hnil : bitsOfD v = [] := by
      rw [bitsOfD, List.filter_eq_nil_iff]
      intro x hxr
      rw [List.mem_range] at hxr
      intro hx
      have hxl := hlow x hx
      rw [hasBitD] at hx
      have h1 : bbi.toNat ≤ x / 64 := by omega
      have h2 : x / 64 < n := by omega
      rw [hz (x / 64) h1 h2, Nat.zero_testBit] at hx
      exact Bool.false_ne_true hx
    refine ⟨hnil, ?_⟩
    simp only [nextBitDel]
    rw [hF]
  | some jp =>
    obtain ⟨j, p⟩ := jp
    obtain ⟨h1, h2, h3, h4, h5⟩ := scanFwdFromD_some hF
    have hjlen : j < v.length := by omega
    have hj64 := getD_mem_lt hU hjlen
    have hp64 : p < 64 := by rw [h4]; exact lsbPos_lt_64 h3 hj64
    left
    have hbit : hasBitD v (64 * j + p) = true := by
      rw [hasBitD]
      have e2 : (64 * j + p) / 64 = j := by omega
      have e3 : (64 * j + p) % 64 = p := by omega
      rw [e2, e3, h4]
      exact testBit_lsbPos _ h3
    have hmin : ∀ x ∈ bitsOfD v, 64 * j + p ≤ x := by
      intro x hxm
      have hx := (mem_bitsOfD v x).mp hxm
      have hxl := hlow x hx
      have hxr := hasBitD_lt hx
      rw [hasBitD] at hx
      by_cases hxj : x / 64 = j
      · have hbitj : (v.getD j 0).testBit (x % 64) = true := by
          rw [← hxj]; exact hx
        have hple : p ≤ x % 64 := by
          by_contra hlt
          rw [h4] at hlt
          rw [lsbPos_min (v.getD j 0) (x % 64) (by omega)] at hbitj
          exact Bool.false_ne_true hbitj
        omega
      · by_cases hxlt : x / 64 < j
        · exfalso
          have hge : bbi.toNat ≤ x / 64 := by omega
          rw [h5 (x / 64) hge hxlt, Nat.zero_testBit] at hx
          exact Bool.false_ne_true hx
        · omega
    have hmem : 64 * j + p ∈ bitsOfD v := (mem_bitsOfD v _).mpr hbit
    obtain ⟨t, ht⟩ : ∃ t, bitsOfD v = (64 * j + p) :: t := by
      cases hbv : bitsOfD v with
      | nil => rw [hbv] at hmem; exact absurd hmem (List.not_mem_nil _)
      | cons a t' =>
        have hsort := bitsOfD_sorted v
        rw [hbv] at hsort hmem
        have haa : a ∈ bitsOfD v := by rw [hbv]; exact List.mem_cons_self _ _
        have h6 := hmin a haa
        rcases List.mem_cons.mp hmem with he | ht'
        · exact ⟨t', by rw [← he]⟩
        · have h7 := (List.pairwise_cons.mp hsort).1 _ ht'
          omega
    refine ⟨64 * j + p, t, ht, ?_, ?_⟩
    · simp only [nextBitDel]
      rw [hF]
      have e2 : (64 * j + p) / 64 = j := by omega
      have e3 : (64 * j + p) % 64 = p := by omega
      rw [e2, e3]
      have e1 : ((64 * j + p : Nat) : Int) = (p : Int) + 64 * (j : Int) := by
        push_cast; ring
      rw [e1]
    · have e2 : (64 * j + p) / 64 = j := by omega
      rw [e2]
      exact hjlen

theorem scanBits_stuck (step : BBScan → Int × BBScan) (st : BBScan)
    (hst : step st = (-1, st)) : ∀ fuel, scanBits step fuel st = ([], st) := by
  intro fuel
  cases fuel with
  | zero => rfl
  | succ f =>
    simp only [scanBits]
    rw [hst, if_pos rfl]

theorem scanBits_nextBit : ∀ (fuel n : Nat) (v : List Nat) (bbi : Int) (pos : Nat),
    v.length = n → blocksU64 v →
    ((pos ≤ 63 ∧ 0 ≤ bbi) ∨ (bbi = 0 ∧ pos = 65)) →
    ∀ L : List Nat,
    (bitsOfD v).filter (fun x : Nat => decide (cvalF ⟨n, v, bbi, pos⟩ < (x : Int))) = L →
    L.length ≤ fuel →
    (scanBits nextBit fuel ⟨n, v, bbi, pos⟩).1 = L.map (fun b : Nat => (b : Int)) ∧
    (scanBits nextBit fuel ⟨n, v, bbi, pos⟩).2.nBB = n ∧
    (scanBits nextBit fuel ⟨n, v, bbi, pos⟩).2.vBB = v := by
  intro fuel
  induction fuel with
  | zero =>
    intro n v bbi pos hlen hU hcur L hL hf
    have hnil : L = [] := List.eq_nil_of_length_eq_zero (by omega)
    subst hnil
    exact ⟨rfl, rfl, rfl⟩
  | succ f ih =>
    intro n v bbi pos hlen hU hcur L hL hf
    rcases nextBit_cases n v bbi pos hlen hU hcur with ⟨b, hst, hbit, hgt, hmin⟩ | ⟨hst, hnone⟩
    · have hbL : b ∈ L := by
        rw [← hL, List.mem_filter]
        exact ⟨(mem_bitsOfD v b).mpr hbit, by simpa using hgt⟩
      have hsort : L.Pairwise (· < ·) := hL ▸ List.Pairwise.filter _ (bitsOfD_sorted v)
      cases L with
      | nil => exact absurd hbL (List.not_mem_nil b)
      | cons a t =>
        have haf : a ∈ (bitsOfD v).filter
            (fun x : Nat => decide (cvalF ⟨n, v, bbi, pos⟩ < (x : Int))) := by
          rw [hL]; exact List.mem_cons_self a t
        have hab : b ≤ a := hmin a ((mem_bitsOfD v a).mp (List.mem_filter.mp haf).1)
          (by simpa using (List.mem_filter.mp haf).2)
        have hba : b = a := by
          rcases List.mem_cons.mp hbL with he | hti
          · exact he
          · have h7 := (List.pairwise_cons.mp hsort).1 b hti
            omega
        subst hba
        have hcur' : ((b % 64 ≤ 63 ∧ 0 ≤ ((b / 64 : Nat) : Int)) ∨
            (((b / 64 : Nat) : Int) = 0 ∧ b % 64 = 65)) :=
          Or.inl ⟨by omega, Int.natCast_nonneg _⟩
        have hcb : cvalF ⟨n, v, ((b / 64 : Nat) : Int), b % 64⟩ = (b : Int) := by
          simp only [cvalF]
          rw [if_neg (by omega : ¬ b % 64 = 65)]
          omega
        have hL' : (bitsOfD v).filter
            (fun x : Nat => decide (cvalF ⟨n, v, ((b / 64 : Nat) : Int), b % 64⟩ < (x : Int)))
            = t := by
          rw [hcb]
          exact filter_gt_head (bitsOfD v) (bitsOfD_sorted v) _ b t hL
        have hrec := ih n v ((b / 64 : Nat) : Int) (b % 64) hlen hU hcur' t hL'
          (by simp only [List.length_cons] at hf; omega)
        have hsb : scanBits nextBit (f + 1) ⟨n, v, bbi, pos⟩ =
            ((b : Int) :: (scanBits nextBit f ⟨n, v, ((b / 64 : Nat) : Int), b % 64⟩).1,
             (scanBits nextBit f ⟨n, v, ((b / 64 : Nat) : Int), b % 64⟩).2) := by
          simp only [scanBits]
          rw [hst, if_neg (by omega : ¬ ((b : Int) = -1))]
        rw [hsb]
        refine ⟨?_, hrec.2.1, hrec.2.2⟩
        simp only [List.map_cons]
        rw [hrec.1]
    · have hLnil : L = [] := by
        rw [← hL, List.filter_eq_nil_iff]
        intro x hx
        simp only [decide_eq_true_eq]
        exact hnone x ((mem_bitsOfD v x).mp hx)
      subst hLnil
      have hsb : scanBits nextBit (f + 1) ⟨n, v, bbi, pos⟩ = ([], ⟨n, v, bbi, pos⟩) := by
        simp only [scanBits]
        rw [hst, if_pos rfl]
      rw [hsb]
      exact ⟨rfl, rfl, rfl⟩

theorem scanBits_prevBit : ∀ (fuel n : Nat) (v : List Nat) (bbi : Int) (pos : Nat),
    blocksU64 v → 0 ≤ bbi → pos ≤ 64 →
    ∀ M : List Nat,
    (bitsOfD v).filter (fun x : Nat => decide ((x : Int) < cvalB ⟨n, v, bbi, pos⟩)) = M →
    M.length ≤ fuel →
    (scanBits prevBit fuel ⟨n, v, bbi, pos⟩).1 = M.reverse.map (fun b : Nat => (b : Int)) ∧
    (scanBits prevBit fuel ⟨n, v, bbi, pos⟩).2.nBB = n ∧
    (scanBits prevBit fuel ⟨n, v, bbi, pos⟩).2.vBB = v := by
  intro fuel
  induction fuel with
  | zero =>
    intro n v bbi pos hU hb0 hp64 M hM hf
    have hnil : M = [] := List.eq_nil_of_length_eq_zero (by omega)
    subst hnil
    exact ⟨rfl, rfl, rfl⟩
  | succ f ih =>
    intro n v bbi pos hU hb0 hp64 M hM hf
    rcases prevBit_cases n v bbi pos hU hb0 hp64 with ⟨b, hst, hbit, hlt, hmax⟩ | ⟨hst, hnone⟩
    · have hbM : b ∈ M := by
        rw [← hM, List.mem_filter]
        exact ⟨(mem_bitsOfD v b).mpr hbit, by simpa using hlt⟩
      have hMsort : M.Pairwise (· < ·) := hM ▸ List.Pairwise.filter _ (bitsOfD_sorted v)
      rcases List.eq_nil_or_concat M with hnil | ⟨M', c, hMc⟩
      · rw [hnil] at hbM; exact absurd hbM (List.not_mem_nil _)
      · have hMc' : M = M' ++ [c] := by rw [hMc, List.concat_eq_append]
        have hcM : c ∈ M := by rw [hMc']; exact List.mem_append_right _ (by simp)
        have hcf : c ∈ (bitsOfD v).filter
            (fun x : Nat => decide ((x : Int) < cvalB ⟨n, v, bbi, pos⟩)) := by
          rw [hM]; exact hcM
        have hcb : c ≤ b := hmax c ((mem_bitsOfD v c).mp (List.mem_filter.mp hcf).1)
          (by simpa using (List.mem_filter.mp hcf).2)
        have hbc : b = c := by
          rw [hMc'] at hbM
          rcases List.mem_append.mp hbM with hbM' | hbs
          · have hpair := hMsort
            rw [hMc'] at hpair
            have h8 := (List.pairwise_append.mp hpair).2.2 b hbM' c (by simp)
            omega
          · simpa using hbs
        subst hbc
        have hcb2 : cvalB ⟨n, v, ((b / 64 : Nat) : Int), b % 64⟩ = (b : Int) := by
          simp only [cvalB]
          omega
        have hM' : (bitsOfD v).filter
            (fun x : Nat => decide ((x : Int) < cvalB ⟨n, v, ((b / 64 : Nat) : Int), b % 64⟩))
            = M' := by
          rw [hcb2]
          exact filter_lt_init (bitsOfD v) (bitsOfD_sorted v) _ M' b (by rw [hM]; exact hMc')
        have hrec := ih n v ((b / 64 : Nat) : Int) (b % 64) hU (Int.natCast_nonneg _)
          (by omega) M' hM'
          (by rw [hMc'] at hf; simp only [List.length_append, List.length_cons,
                List.length_nil] at hf; omega)
        have hsb : scanBits prevBit (f + 1) ⟨n, v, bbi, pos⟩ =
            ((b : Int) :: (scanBits prevBit f ⟨n, v, ((b / 64 : Nat) : Int), b % 64⟩).1,
             (scanBits prevBit f ⟨n, v, ((b / 64 : Nat) : Int), b % 64⟩).2) := by
          simp only [scanBits]
          rw [hst, if_neg (by omega : ¬ ((b : Int) = -1))]
        rw [hsb]
        refine ⟨?_, hrec.2.1, hrec.2.2⟩
        rw [hMc', List.reverse_append, List.reverse_singleton, List.singleton_append,
            List.map_cons, hrec.1]
    · have hMnil : M = [] := by
        rw [← hM, List.filter_eq_nil_iff]
        intro x hx
        simp only [decide_eq_true_eq]
        exact hnone x ((mem_bitsOfD v x).mp hx)
      subst hMnil
      have hsb : scanBits prevBit (f + 1) ⟨n, v, bbi, pos⟩ = ([], ⟨n, v, bbi, pos⟩) := by
        simp only [scanBits]
        rw [hst, if_pos rfl]
      rw [hsb]
      exact ⟨rfl, rfl, rfl⟩

theorem scanBits_nextBitDel : ∀ (fuel n : Nat) (v : List Nat) (bbi : Int) (pos : Nat),
    v.length = n → blocksU64 v → 0 ≤ bbi →
    (∀ x : Nat, hasBitD v x = true → 64 * bbi ≤ (x : Int)) →
    (bitsOfD v).length ≤ fuel →
    (scanBits nextBitDel fuel ⟨n, v, bbi, pos⟩).1 = (bitsOfD v).map (fun b : Nat => (b : Int)) ∧
    (scanBits nextBitDel fuel ⟨n, v, bbi, pos⟩).2.nBB = n ∧
    (scanBits nextBitDel fuel ⟨n, v, bbi, pos⟩).2.vBB.length = v.length ∧
    ∀ w ∈ (scanBits nextBitDel fuel ⟨n, v, bbi, pos⟩).2.vBB, w = 0 := by
  intro fuel
  induction fuel with
  | zero =>
    intro n v bbi pos hlen hU hb0 hlow hf
    have hnil : bitsOfD v = [] := List.eq_nil_of_length_eq_zero (by omega)
    rw [hnil]
    exact ⟨rfl, rfl, rfl, blocks_zero_of_bitsOfD_nil hU hnil⟩
  | succ f ih =>
    intro n v bbi pos hlen hU hb0 hlow hf
    rcases nextBitDel_cases n v bbi pos hlen hU hb0 hlow with
      ⟨b, t, ht, hst, hblt⟩ | ⟨hnil, hst⟩
    · have hU' : blocksU64 (clearBitBlock v (b / 64) (b % 64)) :=
        blocksU64_clearBitBlock hU _ _
      have hlen' : (clearBitBlock v (b / 64) (b % 64)).length = n := by
        rw [length_clearBitBlock]; exact hlen
      have hbits' : bitsOfD (clearBitBlock v (b / 64) (b % 64)) = t :=
        bitsOfD_clear_head hU hblt ht
      have hsort : (bitsOfD v).Pairwise (· < ·) := bitsOfD_sorted v
      have hlow' : ∀ x : Nat, hasBitD (clearBitBlock v (b / 64) (b % 64)) x = true →
          64 * ((b / 64 : Nat) : Int) ≤ (x : Int) := by
        intro x hx
        have hxm : x ∈ t := by
          rw [← hbits']
          exact (mem_bitsOfD _ x).mpr hx
        have hbx : b < x := by
          rw [ht] at hsort
          exact (List.pairwise_cons.mp hsort).1 x hxm
        omega
      have hrec := ih n (clearBitBlock v (b / 64) (b % 64)) ((b / 64 : Nat) : Int) pos
        hlen' hU' (Int.natCast_nonneg _) hlow'
        (by rw [hbits']; rw [ht] at hf; simp only [List.length_cons] at hf; omega)
      have hsb : scanBits nextBitDel (f + 1) ⟨n, v, bbi, pos⟩ =
          ((b : Int) ::
            (scanBits nextBitDel f
              ⟨n, clearBitBlock v (b / 64) (b % 64), ((b / 64 : Nat) : Int), pos⟩).1,
           (scanBits nextBitDel f
              ⟨n, clearBitBlock v (b / 64) (b % 64), ((b / 64 : Nat) : Int), pos⟩).2) := by
        simp only [scanBits]
        rw [hst, if_neg (by omega : ¬ ((b : Int) = -1))]
      rw [hsb, ht]
      refine ⟨?_, hrec.2.1, ?_, hrec.2.2.2⟩
      · simp only [List.map_cons]
        rw [hrec.1, hbits']
      · rw [hrec.2.2.1, length_clearBitBlock]
    · have hsb : scanBits nextBitDel (f + 1) ⟨n, v, bbi, pos⟩ = ([], ⟨n, v, bbi, pos⟩) := by
        simp only [scanBits]
        rw [hst, if_pos rfl]
      rw [hsb, hnil]
      exact ⟨rfl, rfl, rfl, blocks_zero_of_bitsOfD_nil hU hnil⟩

/-- **C5.** For every dense scanning bitset (well-formed 64-bit blocks,
block vector matching the capacity `nBB_`) and every in-range bit index
`firstBit`, after `init_scan(firstBit, NON_DESTRUCTIVE)` repeated
`next_bit` calls enumerate exactly the set bits strictly greater than
`firstBit`, in ascending order, and then return `noBit`: the output is
the same for every iteration budget at least the number of such bits,
so the call after the last enumerated bit yields `noBit = -1` and the
scan stays finished.  The blocks are left unchanged, and `firstBit`
itself is never returned, even when it is a set bit. -/
theorem dense_scan_from_firstBit (n : Nat) (v : List Nat) (bbi0 : Int) (pos0 : Nat)
    (firstBit : Nat) (hlen : v.length = n) (hU : blocksU64 v)
    (hfb : firstBit < 64 * n) (fuel : Nat)
    (hfuel : ((bitsOfD v).filter (fun x : Nat => decide (firstBit < x))).length ≤ fuel) :
    (scanBits nextBit fuel (initScanFrom ⟨n, v, bbi0, pos0⟩ (firstBit : Int) .nonDestructive)).1
        = ((bitsOfD v).filter (fun x : Nat => decide (firstBit < x))).map
            (fun b : Nat => (b : Int)) ∧
    (scanBits nextBit fuel (initScanFrom ⟨n, v, bbi0, pos0⟩ (firstBit : Int)
        .nonDestructive)).2.vBB = v ∧
    ((firstBit : Int) ∉ (scanBits nextBit fuel (initScanFrom ⟨n, v, bbi0, pos0⟩
        (firstBit : Int) .nonDestructive)).1) := by
  have hinit : initScanFrom ⟨n, v, bbi0, pos0⟩ (firstBit : Int) .nonDestructive
      = ⟨n, v, ((firstBit / 64 : Nat) : Int), firstBit % 64⟩ := by
    simp only [initScanFrom]
    rw [if_neg (by omega : ¬ ((firstBit : Nat) : Int) = -1)]
    simp only [Int.toNat_natCast]
  rw [hinit]
  have hcv : cvalF ⟨n, v, ((firstBit / 64 : Nat) : Int), firstBit % 64⟩ = (firstBit : Int) := by
    simp only [cvalF]
    rw [if_neg (by omega : ¬ firstBit % 64 = 65)]
    omega
  have hLeq : (bitsOfD v).filter
      (fun x : Nat =>
        decide (cvalF ⟨n, v, ((firstBit / 64 : Nat) : Int), firstBit % 64⟩ < (x : Int)))
      = (bitsOfD v).filter (fun x : Nat => decide (firstBit < x)) := by
    apply List.filter_congr
    intro x _
    rw [hcv, decide_eq_decide]
    exact Nat.cast_lt
  have h := scanBits_nextBit fuel n v ((firstBit / 64 : Nat) : Int) (firstBit % 64)
    hlen hU (Or.inl ⟨by omega, Int.natCast_nonneg _⟩) _ hLeq hfuel
  refine ⟨h.1, h.2.2, ?_⟩
  rw [h.1]
  intro hmem
  obtain ⟨y, hy, hcast⟩ := List.mem_map.mp hmem
  have hyy : y = firstBit := by exact_mod_cast hcast
  subst hyy
  have hcontra := (List.mem_filter.mp hy).2
  simp at hcontra

/-- **C6.** Scan round trip on a dense scanning bitset with set bits
`b1 < b2 < … < bk` (the list `bitsOfD`): after `init_scan` a
non-destructive forward scan (`next_bit` until `noBit`) yields exactly
`b1, …, bk` in that order and leaves the blocks unchanged; a
non-destructive reverse scan (`prev_bit` until `noBit`) yields
`bk, …, b1` and leaves the blocks unchanged; a destructive forward scan
(`next_bit_del` until `noBit`) yields `b1, …, bk` and leaves every
block zero. -/
theorem dense_scan_round_trip (n : Nat) (v : List Nat) (bbi0 : Int) (pos0 : Nat)
    (hlen : v.length = n) (hU : blocksU64 v) (fuel : Nat)
    (hfuel : (bitsOfD v).length ≤ fuel) :
    ((scanBits nextBit fuel (initScan ⟨n, v, bbi0, pos0⟩ .nonDestructive)).1
        = (bitsOfD v).map (fun b : Nat => (b : Int)) ∧
     (scanBits nextBit fuel (initScan ⟨n, v, bbi0, pos0⟩ .nonDestructive)).2.vBB = v) ∧
    ((scanBits prevBit fuel (initScan ⟨n, v, bbi0, pos0⟩ .nonDestructiveReverse)).1
        = (bitsOfD v).reverse.map (fun b : Nat => (b : Int)) ∧
     (scanBits prevBit fuel (initScan ⟨n, v, bbi0, pos0⟩ .nonDestructiveReverse)).2.vBB = v) ∧
    ((scanBits nextBitDel fuel (initScan ⟨n, v, bbi0, pos0⟩ .destructive)).1
        = (bitsOfD v).map (fun b : Nat => (b : Int)) ∧
     ∀ w ∈ (scanBits nextBitDel fuel (initScan ⟨n, v, bbi0, pos0⟩ .destructive)).2.vBB,
       w = 0) := by
  have hiF : initScan ⟨n, v, bbi0, pos0⟩ .nonDestructive = ⟨n, v, 0, 65⟩ := rfl
  have hiR : initScan ⟨n, v, bbi0, pos0⟩ .nonDestructiveReverse
      = ⟨n, v, (n : Int) - 1, 64⟩ := rfl
  have hiD : initScan ⟨n, v, bbi0, pos0⟩ .destructive = ⟨n, v, 0, pos0⟩ := rfl
  refine ⟨?_, ?_, ?_⟩
  · rw [hiF]
    have hL : (bitsOfD v).filter (fun x : Nat => decide (cvalF ⟨n, v, 0, 65⟩ < (x : Int)))
        = bitsOfD v := by
      apply List.filter_eq_self.mpr
      intro x _
      have hc : cvalF ⟨n, v, 0, 65⟩ = -1 := rfl
      rw [hc]
      simp only [decide_eq_true_eq]
      omega
    have h := scanBits_nextBit fuel n v 0 65 hlen hU (Or.inr ⟨rfl, rfl⟩)
      (bitsOfD v) hL hfuel
    exact ⟨h.1, h.2.2⟩
  · rw [hiR]
    by_cases hn : n = 0
    · subst hn
      have hv : v = [] := List.eq_nil_of_length_eq_zero hlen
      subst hv
      have hst : prevBit ⟨0, [], ((0 : Nat) : Int) - 1, 64⟩
          = (-1, ⟨0, [], ((0 : Nat) : Int) - 1, 64⟩) := by
        decide
      rw [scanBits_stuck prevBit _ hst fuel]
      exact ⟨rfl, rfl⟩
    · have hb0 : (0 : Int) ≤ (n : Int) - 1 := by omega
      have hM : (bitsOfD v).filter
          (fun x : Nat => decide ((x : Int) < cvalB ⟨n, v, (n : Int) - 1, 64⟩))
          = bitsOfD v := by
        apply List.filter_eq_self.mpr
        intro x hx
        have hxl : x < 64 * v.length := hasBitD_lt ((mem_bitsOfD v x).mp hx)
        simp only [cvalB, decide_eq_true_eq]
        omega
      have h := scanBits_prevBit fuel n v ((n : Int) - 1) 64 hU hb0 (le_refl 64)
        (bitsOfD v) hM hfuel
      exact ⟨h.1, h.2.2⟩
  · rw [hiD]
    have h := scanBits_nextBitDel fuel n v 0 pos0 hlen hU (le_refl 0)
      (fun x _ => by omega) hfuel
    exact ⟨h.1, h.2.2.2⟩

set_option maxRecDepth 100000 in
theorem dense_scan_from_firstBit_witness :
    (scanBits nextBit 3 (initScanFrom ⟨2, [2 ^ 50 + 2 ^ 10, 2 ^ 6], 0, 0⟩ ((10 : Nat) : Int)
        .nonDestructive)).1
      = ((bitsOfD [2 ^ 50 + 2 ^ 10, 2 ^ 6]).filter (fun x : Nat => decide (10 < x))).map
          (fun b : Nat => (b : Int)) ∧
    (scanBits nextBit 3 (initScanFrom ⟨2, [2 ^ 50 + 2 ^ 10, 2 ^ 6], 0, 0⟩ ((10 : Nat) : Int)
        .nonDestructive)).2.vBB = [2 ^ 50 + 2 ^ 10, 2 ^ 6] ∧
    (((10 : Nat) : Int) ∉ (scanBits nextBit 3 (initScanFrom ⟨2, [2 ^ 50 + 2 ^ 10, 2 ^ 6], 0, 0⟩
        ((10 : Nat) : Int) .nonDestructive)).1) :=
  dense_scan_from_firstBit 2 [2 ^ 50 + 2 ^ 10, 2 ^ 6] 0 0 10 rfl (by decide) (by decide) 3
    (by decide)

set_option maxRecDepth 100000 in
theorem dense_scan_round_trip_witness :
    ((scanBits nextBit 5 (initScan ⟨2, [2 ^ 50 + 2 ^ 10, 2 ^ 6], -7, 3⟩ .nonDestructive)).1
        = (bitsOfD [2 ^ 50 + 2 ^ 10, 2 ^ 6]).map (fun b : Nat => (b : Int)) ∧
     (scanBits nextBit 5 (initScan ⟨2, [2 ^ 50 + 2 ^ 10, 2 ^ 6], -7, 3⟩
        .nonDestructive)).2.vBB = [2 ^ 50 + 2 ^ 10, 2 ^ 6]) ∧
    ((scanBits prevBit 5 (initScan ⟨2, [2 ^ 50 + 2 ^ 10, 2 ^ 6], -7, 3⟩
        .nonDestructiveReverse)).1
        = (bitsOfD [2 ^ 50 + 2 ^ 10, 2 ^ 6]).reverse.map (fun b : Nat => (b : Int)) ∧
     (scanBits prevBit 5 (initScan ⟨2, [2 ^ 50 + 2 ^ 10, 2 ^ 6], -7, 3⟩
        .nonDestructiveReverse)).2.vBB = [2 ^ 50 + 2 ^ 10, 2 ^ 6]) ∧
    ((scanBits nextBitDel 5 (initScan ⟨2, [2 ^ 50 + 2 ^ 10, 2 ^ 6], -7, 3⟩ .destructive)).1
        = (bitsOfD [2 ^ 50 + 2 ^ 10, 2 ^ 6]).map (fun b : Nat => (b : Int)) ∧
     ∀ w ∈ (scanBits nextBitDel 5 (initScan ⟨2, [2 ^ 50 + 2 ^ 10, 2 ^ 6], -7, 3⟩
        .destructive)).2.vBB, w = 0) :=
  dense_scan_round_trip 2 [2 ^ 50 + 2 ^ 10, 2 ^ 6] (-7) 3 rfl (by decide) 5 (by decide)
